import Mathlib

/-!
Shallow embedding of the convolutional encoder / Viterbi decoder from
`src/lib/viterbi.cpp` (class `ViterbiCodec`).

Bit sequences (`bitarr_t` in the source) are lists of naturals holding the
logical bit values 0/1; C++ `int` metric values are naturals, with the
sentinel `INT_MAX = 2147483647` kept explicit, exactly as the source uses it.
The bounds-checked table access `outputs_.at(...)` is modelled with
`List.get?` (`none` models the thrown `std::out_of_range`).
-/

namespace Viterbi

/-- `HammingDistance` from the anonymous namespace of `viterbi.cpp`:
number of positions where the two (equal-length) bit lists differ. -/
def HammingDistance : List Nat → List Nat → Nat
  | x :: xs, y :: ys => (if x = y then 0 else 1) + HammingDistance xs ys
  | _, _ => 0

/-- Loop body of `ReverseBits`: while `num_bits-- > 0`,
`output = (output << 1) + (input & 1); input >>= 1`. -/
def reverseBitsAux : Nat → Nat → Nat → Nat
  | 0, _, output => output
  | numBits + 1, input, output => reverseBitsAux numBits (input / 2) (2 * output + input % 2)

/-- `ReverseBits(num_bits, input)`: reverse the low `num_bits` bits of `input`. -/
def ReverseBits (numBits input : Nat) : Nat := reverseBitsAux numBits input 0

/-- The codec state: constraint length and generator polynomials
(`constraint_` and `polynomials_` members). -/
structure ViterbiCodec where
  constraint : Nat
  polynomials : List Nat

/-- `num_parity_bits()`: number of polynomials. -/
def numParityBits (c : ViterbiCodec) : Nat := c.polynomials.length

/-- `NextState(current_state, input) = (current_state >> 1) | (input << (constraint_ - 2))`. -/
def NextState (c : ViterbiCodec) (currentState input : Nat) : Nat :=
  (currentState >>> 1) ||| (input <<< (c.constraint - 2))

/-- Inner loop of `InitializeOutputs`: for `k` in `[0, constraint)`,
`output ^= (input & 1) & (polynomial & 1); polynomial >>= 1; input >>= 1`. -/
def convOutputAux : Nat → Nat → Nat → Nat → Nat
  | 0, _, _, output => output
  | k + 1, input, polynomial, output =>
      convOutputAux k (input / 2) (polynomial / 2) (output ^^^ ((input % 2) &&& (polynomial % 2)))

/-- One row of the output table built by `InitializeOutputs`: for combined
index `i`, the list of output bits, one per polynomial, in order. -/
def outputsEntry (c : ViterbiCodec) (i : Nat) : List Nat :=
  c.polynomials.map fun p => convOutputAux c.constraint i (ReverseBits c.constraint p) 0

/-- The `outputs_` table built by `InitializeOutputs`: `2^constraint` rows. -/
def outputs (c : ViterbiCodec) : List (List Nat) :=
  (List.range (2 ^ c.constraint)).map (outputsEntry c)

/-- The combined index `current_state | (input << (constraint_ - 1))` used by `Output`. -/
def outputIndex (c : ViterbiCodec) (currentState input : Nat) : Nat :=
  currentState ||| (input <<< (c.constraint - 1))

/-- `Output(current_state, input)`: bounds-checked lookup
`outputs_.at(current_state | (input << (constraint_ - 1)))`;
`none` models the `std::out_of_range` exception. -/
def Output (c : ViterbiCodec) (currentState input : Nat) : Option (List Nat) :=
  (outputs c).get? (outputIndex c currentState input)

/-- The encoding loop of `Encode`, threading the shift-register state. -/
def encodeFrom (c : ViterbiCodec) : Nat → List Nat → Option (List Nat)
  | _, [] => some []
  | state, b :: bs =>
    match Output c state b with
    | none => none
    | some out =>
      match encodeFrom c (NextState c state b) bs with
      | none => none
      | some rest => some (out ++ rest)

/-- `Encode(bits)`: start in state 0, emit one output group per input bit. -/
def Encode (c : ViterbiCodec) (bits : List Nat) : Option (List Nat) := encodeFrom c 0 bits

/-- Total variant of the table lookup (used by the decoder, whose lookups are
always in bounds; out-of-range yields `[]`). -/
def outputAt (c : ViterbiCodec) (idx : Nat) : List Nat := (outputs c).getD idx []

/-- Total variant of the encode loop (agrees with `encodeFrom` on valid input,
see `encodeFrom_eq_encodeT`). -/
def encodeT (c : ViterbiCodec) : Nat → List Nat → List Nat
  | _, [] => []
  | state, b :: bs =>
      outputAt c (outputIndex c state b) ++ encodeT c (NextState c state b) bs

/-- The sentinel `std::numeric_limits<int>::max()` used for unreachable states. -/
def INF : Nat := 2147483647

/-- `BranchMetric(bits, source_state, target_state)`: Hamming distance between
the received group and `Output(source_state, target_state >> (constraint_ - 2))`. -/
def BranchMetric (c : ViterbiCodec) (bits : List Nat) (sourceState targetState : Nat) : Nat :=
  HammingDistance bits
    (outputAt c (outputIndex c sourceState (targetState >>> (c.constraint - 2))))

/-- `PathMetric(bits, prev_path_metrics, state)`: the two predecessor states of
`state` are `s | 0` and `s | 1` with `s = (state & ((1 << (constraint_-2)) - 1)) << 1`;
a predecessor metric strictly below `INT_MAX` is extended by the branch metric,
otherwise it is kept as is; the smaller candidate wins, ties to `s | 0`. -/
def PathMetric (c : ViterbiCodec) (bits : List Nat) (prevPathMetrics : List Nat)
    (state : Nat) : Nat × Nat :=
  let s := (state &&& ((1 <<< (c.constraint - 2)) - 1)) <<< 1
  let sourceState1 := s ||| 0
  let sourceState2 := s ||| 1
  let pm1 := prevPathMetrics.getD sourceState1 0
  let pm1 := if pm1 < INF then pm1 + BranchMetric c bits sourceState1 state else pm1
  let pm2 := prevPathMetrics.getD sourceState2 0
  let pm2 := if pm2 < INF then pm2 + BranchMetric c bits sourceState2 state else pm2
  if pm1 ≤ pm2 then (pm1, sourceState1) else (pm2, sourceState2)

/-- `UpdatePathMetrics`: compute all new metrics from the previous vector only,
returning the new metric vector and the new trellis column (in the source the
column length is `1 << (constraint_ - 1)`, which always equals the metric
vector length at every call site). -/
def UpdatePathMetrics (c : ViterbiCodec) (bits : List Nat) (pathMetrics : List Nat) :
    List Nat × List Nat :=
  ((List.range pathMetrics.length).map fun i => (PathMetric c bits pathMetrics i).1,
   (List.range pathMetrics.length).map fun i => (PathMetric c bits pathMetrics i).2)

/-- Structural worker for the grouping loop of `Decode` (fuel-based so that
it reduces definitionally; the fuel is the list length, which always
suffices because every iteration consumes at least one bit). A short final
group is completed with trailing zeros; see `chunkPad` for the status of
that padding. -/
def chunkPadFuel : Nat → Nat → List Nat → List (List Nat)
  | _, _, [] => []
  | _, 0, _ :: _ => []
  | 0, _ + 1, _ :: _ => []
  | fuel + 1, n + 1, b :: bs =>
      ((b :: bs).take (n + 1) ++ List.replicate ((n + 1) - (b :: bs).length) 0)
        :: chunkPadFuel fuel (n + 1) ((b :: bs).drop (n + 1))

/-- The grouping loop of `Decode`: consecutive groups of `n` received bits.
Modelled from the spec for a short final group: the spec and the source's own
comment (viterbi.cpp:151-152, "If some bits are missing, fill with trailing
zeros") describe zero-padding, but the group constructor at viterbi.cpp:150
takes the iterator range `bits.begin() + i .. bits.begin() + i +
num_parity_bits()`, whose end iterator lies past the buffer whenever fewer
than `num_parity_bits()` bits remain, an out-of-bounds read with no defined
result; the constructed group is then never short, so the zero-fill `resize`
branch at viterbi.cpp:153-156 is dead code and the padding never executes.
When the input length is an exact multiple of `n`, every group is full and
this definition is exactly the code's grouping. The `n = 0` case is
unreachable (the polynomial list is never empty). -/
def chunkPad (n : Nat) (bits : List Nat) : List (List Nat) :=
  chunkPadFuel bits.length n bits

/-- The forward pass of `Decode`: fold `UpdatePathMetrics` over the groups,
collecting the trellis columns; returns the final metric vector and trellis. -/
def decodeSteps (c : ViterbiCodec) : List (List Nat) → List Nat → List Nat × List (List Nat)
  | [], pm => (pm, [])
  | g :: gs, pm =>
      let step := UpdatePathMetrics c g pm
      let rest := decodeSteps c gs step.1
      (rest.1, step.2 :: rest.2)

/-- Initial path metrics in `Decode`: `INT_MAX` everywhere except state 0. -/
def initMetrics (c : ViterbiCodec) : List Nat :=
  (List.replicate (1 <<< (c.constraint - 1)) INF).set 0 0

/-- `std::min_element(...) - begin()`: index of the first minimum. -/
def minIndex (l : List Nat) : Nat :=
  (List.range l.length).foldl (fun best i => if l.getD i 0 < l.getD best 0 then i else best) 0

/-- The traceback loop of `Decode`, consuming trellis columns from last to
first: emit `state >> (constraint_ - 2)` and move to the recorded predecessor. -/
def tracebackRev (c : ViterbiCodec) : List (List Nat) → Nat → List Nat
  | [], _ => []
  | col :: rest, state => (state >>> (c.constraint - 2)) :: tracebackRev c rest (col.getD state 0)

/-- Final state of a traceback walk over the given columns. -/
def tbEnd (cols : List (List Nat)) (st : Nat) : Nat :=
  cols.foldl (fun s col => col.getD s 0) st

/-- `Decode(bits)`: forward pass over zero-padded groups, then traceback from
the first state of minimum final metric, reversing the collected bits. -/
def Decode (c : ViterbiCodec) (bits : List Nat) : List Nat :=
  let res := decodeSteps c (chunkPad (numParityBits c) bits) (initMetrics c)
  (tracebackRev c res.2.reverse (minIndex res.1)).reverse

/-- The constructor precondition checks of `ViterbiCodec::ViterbiCodec`, on the
C++ `int` arguments: `assert(!polynomials_.empty())`, and for each polynomial
`assert(p > 0)` and `assert(p < (1 << constraint_))`. -/
def constructorAsserts (constraint : Nat) (polynomials : List Int) : Bool :=
  !polynomials.isEmpty &&
    polynomials.all fun p => decide (0 < p) && decide (p < (2 : Int) ^ constraint)

/-- A codec built from `int` polynomials that passed the constructor asserts. -/
def mkCodec (constraint : Nat) (polynomials : List Int) : ViterbiCodec :=
  ⟨constraint, polynomials.map Int.toNat⟩

/-- A codec configuration the spec calls valid: `K ≥ 2`, a nonempty polynomial
list, every polynomial positive and fitting in `K` bits. -/
def validCodec (c : ViterbiCodec) : Prop :=
  2 ≤ c.constraint ∧ c.polynomials ≠ [] ∧
    ∀ p ∈ c.polynomials, 0 < p ∧ p < 2 ^ c.constraint

instance (c : ViterbiCodec) : Decidable (validCodec c) := by
  unfold validCodec; infer_instance

/-- The constraint-3, polynomials `{7, 5}` codec of the tests. -/
def codec75 : ViterbiCodec := ⟨3, [7, 5]⟩

/-- Flip the bit at position `i` (used to model injected channel errors). -/
def flipBit (l : List Nat) (i : Nat) : List Nat := l.set i (1 - l.getD i 0)

/-- XOR-parity of the binary digits of a natural number (the spec's
"parity (XOR-reduction)"). -/
def natParity : Nat → Nat
  | 0 => 0
  | n + 1 => ((n + 1) % 2) ^^^ natParity ((n + 1) / 2)
  termination_by n => n
  decreasing_by omega

/-- The even-low-bit predecessor `s0` of a target state, as the spec describes it. -/
def predEven (c : ViterbiCodec) (t : Nat) : Nat :=
  (t &&& ((1 <<< (c.constraint - 2)) - 1)) <<< 1

/-- The odd-low-bit predecessor `s1` of a target state. -/
def predOdd (c : ViterbiCodec) (t : Nat) : Nat := predEven c t ||| 1

/-- Candidate cumulative metric as the spec words it: the predecessor's
previous metric plus the branch metric, unless the previous metric is the
sentinel, in which case the candidate stays at the sentinel. -/
def candidateSpec (c : ViterbiCodec) (bits : List Nat) (prev : List Nat)
    (srcState t : Nat) : Nat :=
  if prev.getD srcState 0 = INF then INF
  else prev.getD srcState 0 + BranchMetric c bits srcState t

/-- Candidate cumulative metric exactly as the source computes it
(`if (pm < INT_MAX) pm += BranchMetric(...)`). -/
def candCode (c : ViterbiCodec) (bits : List Nat) (prev : List Nat)
    (srcState t : Nat) : Nat :=
  let p := prev.getD srcState 0
  if p < INF then p + BranchMetric c bits srcState t else p

/-- The list of output groups the encoder emits from a given start state
(one group per message bit). -/
def encGroups (c : ViterbiCodec) : Nat → List Nat → List (List Nat)
  | _, [] => []
  | s, b :: bs => outputAt c (outputIndex c s b) :: encGroups c (NextState c s b) bs

/-- Final shift-register state after encoding a message from a given state. -/
def encFinal (c : ViterbiCodec) : Nat → List Nat → Nat
  | s, [] => s
  | s, b :: bs => encFinal c (NextState c s b) bs

/-- One comparison step of the first-minimum scan (`std::min_element`). -/
def minIndexStep (l : List Nat) (best i : Nat) : Nat :=
  if l.getD i 0 < l.getD best 0 then i else best

/-! ### Generic list helpers -/

theorem getD_map_range {α : Type} (f : Nat → α) {n i : Nat} (h : i < n) (d : α) :
    ((List.range n).map f).getD i d = f i := by
  rw [List.getD_eq_get?, List.get?_map, List.get?_range h]
  rfl

theorem get?_map_range {α : Type} (f : Nat → α) {n i : Nat} (h : i < n) :
    ((List.range n).map f).get? i = some (f i) := by
  rw [List.get?_map, List.get?_range h]
  rfl

/-! ### Hamming distance -/

theorem hammingDistance_self : ∀ x : List Nat, HammingDistance x x = 0
  | [] => rfl
  | a :: xs => by simp [HammingDistance, hammingDistance_self xs]

theorem eq_of_hammingDistance_zero : ∀ {x y : List Nat}, x.length = y.length →
    HammingDistance x y = 0 → x = y
  | [], [], _, _ => rfl
  | [], _ :: _, hl, _ => by simp at hl
  | _ :: _, [], hl, _ => by simp at hl
  | a :: xs, b :: ys, hl, hd => by
    simp only [List.length_cons, Nat.add_right_cancel_iff] at hl
    by_cases hab : a = b
    · simp [HammingDistance, hab] at hd
      rw [hab, eq_of_hammingDistance_zero hl hd]
    · simp only [HammingDistance, if_neg hab] at hd
      omega

/-! ### The output table -/

theorem outputs_length (c : ViterbiCodec) : (outputs c).length = 2 ^ c.constraint := by
  simp [outputs]

theorem outputs_get? {c : ViterbiCodec} {i : Nat} (h : i < 2 ^ c.constraint) :
    (outputs c).get? i = some (outputsEntry c i) := get?_map_range _ h

theorem outputs_get?_none {c : ViterbiCodec} {i : Nat} (h : 2 ^ c.constraint ≤ i) :
    (outputs c).get? i = none := by
  rw [List.get?_eq_none, outputs_length]; exact h

theorem outputAt_eq {c : ViterbiCodec} {i : Nat} (h : i < 2 ^ c.constraint) :
    outputAt c i = outputsEntry c i := by
  unfold outputAt
  rw [List.getD_eq_get?, outputs_get? h, Option.getD_some]

theorem outputsEntry_length (c : ViterbiCodec) (i : Nat) :
    (outputsEntry c i).length = numParityBits c := by
  simp [outputsEntry, numParityBits]

/-! ### ReverseBits -/

theorem reverseBitsAux_out : ∀ n i out : Nat,
    reverseBitsAux n i out = out * 2 ^ n + reverseBitsAux n i 0
  | 0, _, _ => by simp [reverseBitsAux]
  | n + 1, i, out => by
    show reverseBitsAux n (i / 2) (2 * out + i % 2)
      = out * 2 ^ (n + 1) + reverseBitsAux n (i / 2) (2 * 0 + i % 2)
    rw [reverseBitsAux_out n (i / 2) (2 * out + i % 2),
        reverseBitsAux_out n (i / 2) (2 * 0 + i % 2)]
    ring

theorem reverseBitsAux_lt : ∀ n i : Nat, reverseBitsAux n i 0 < 2 ^ n
  | 0, _ => by simp [reverseBitsAux]
  | n + 1, i => by
    show reverseBitsAux n (i / 2) (2 * 0 + i % 2) < 2 ^ (n + 1)
    rw [reverseBitsAux_out n (i / 2) (2 * 0 + i % 2)]
    have h1 := reverseBitsAux_lt n (i / 2)
    have h2 : 2 ^ (n + 1) = 2 * 2 ^ n := by ring
    rcases Nat.mod_two_eq_zero_or_one i with h | h <;> rw [h] <;> omega

theorem reverseBits_lt (n p : Nat) : ReverseBits n p < 2 ^ n := reverseBitsAux_lt n p

theorem reverseBits_top (n p : Nat) : ReverseBits (n + 1) p >>> n = p % 2 := by
  show reverseBitsAux n (p / 2) (2 * 0 + p % 2) >>> n = p % 2
  rw [reverseBitsAux_out n (p / 2) (2 * 0 + p % 2), Nat.shiftRight_eq_div_pow]
  have h1 := reverseBitsAux_lt n (p / 2)
  have h2 : (2 * 0 + p % 2) * 2 ^ n = 2 ^ n * (p % 2) := by ring
  rw [h2, Nat.mul_add_div (Nat.pos_pow_of_pos n (by omega)),
      Nat.div_eq_of_lt h1, Nat.add_zero]

/-! ### The convolution scan -/

theorem natParity_step (x : Nat) : natParity x = (x % 2) ^^^ natParity (x / 2) := by
  match x with
  | 0 => simp [natParity]
  | n + 1 => rw [natParity]

theorem land_mod_two (a b : Nat) : (a &&& b) % 2 = (a % 2) &&& (b % 2) := by
  rcases Nat.mod_two_eq_zero_or_one a with ha | ha <;>
    rcases Nat.mod_two_eq_zero_or_one b with hb | hb <;>
    rw [ha, hb] <;>
    first
    | (rw [show (1 : Nat) &&& 1 = 1 from rfl]
       exact Nat.and_mod_two_eq_one.mpr ⟨ha, hb⟩)
    | (have h : ¬((a &&& b) % 2 = 1) := fun hc => by
        have := Nat.and_mod_two_eq_one.mp hc; omega
       have := Nat.mod_two_eq_zero_or_one (a &&& b)
       simp only [show ((0 : Nat) &&& 0) = 0 from rfl, show ((0 : Nat) &&& 1) = 0 from rfl,
         show ((1 : Nat) &&& 0) = 0 from rfl]
       omega)

theorem convOutputAux_eq_parity : ∀ n i p out : Nat, i < 2 ^ n → p < 2 ^ n →
    convOutputAux n i p out = out ^^^ natParity (i &&& p)
  | 0, i, p, out, hi, hp => by
    have hi0 : i = 0 := by omega
    have hp0 : p = 0 := by omega
    subst hi0; subst hp0
    simp [convOutputAux, natParity]
  | n + 1, i, p, out, hi, hp => by
    have h2 : 2 ^ (n + 1) = 2 * 2 ^ n := by ring
    show convOutputAux n (i / 2) (p / 2) (out ^^^ (i % 2 &&& p % 2))
      = out ^^^ natParity (i &&& p)
    rw [convOutputAux_eq_parity n (i / 2) (p / 2) _ (by omega) (by omega),
        natParity_step (i &&& p), land_mod_two, Nat.and_div_two, Nat.xor_assoc]

theorem convOutputAux_add_top : ∀ n s p out : Nat, s < 2 ^ n →
    convOutputAux (n + 1) (2 ^ n + s) p out
      = convOutputAux (n + 1) s p out ^^^ ((p >>> n) &&& 1)
  | 0, s, p, out, hs => by
    have hs0 : s = 0 := by omega
    subst hs0
    show out ^^^ (1 &&& p % 2) = (out ^^^ (0 &&& p % 2)) ^^^ ((p >>> 0) &&& 1)
    rw [Nat.one_and_eq_mod_two, Nat.mod_mod_of_dvd p (dvd_refl 2), Nat.zero_and,
        Nat.xor_zero, Nat.shiftRight_zero, Nat.and_one_is_mod]
  | n + 1, s, p, out, hs => by
    have hpow : 2 ^ (n + 1) = 2 * 2 ^ n := by ring
    show convOutputAux (n + 1) ((2 ^ (n + 1) + s) / 2) (p / 2)
        (out ^^^ ((2 ^ (n + 1) + s) % 2 &&& p % 2))
      = convOutputAux (n + 1) (s / 2) (p / 2) (out ^^^ (s % 2 &&& p % 2))
          ^^^ ((p >>> (n + 1)) &&& 1)
    have hmod : (2 ^ (n + 1) + s) % 2 = s % 2 := by omega
    have hdiv : (2 ^ (n + 1) + s) / 2 = 2 ^ n + s / 2 := by omega
    have hsh : (p / 2) >>> n = p >>> (n + 1) := by
      rw [show n + 1 = 1 + n from Nat.add_comm n 1, Nat.shiftRight_add, Nat.shiftRight_one]
    rw [hmod, hdiv, convOutputAux_add_top n (s / 2) (p / 2) _ (by omega), hsh]

/-! ### Arithmetic views of the bit manipulations -/

theorem le_or_left (x y : Nat) : y ≤ x ||| y :=
  Nat.le_of_testBit fun i h => by simp [Nat.testBit_or, h]

theorem or_shiftLeft_eq_add {s b n : Nat} (hs : s < 2 ^ n) :
    s ||| (b <<< n) = b * 2 ^ n + s := by
  rw [Nat.shiftLeft_eq, Nat.or_comm, Nat.mul_comm b (2 ^ n), ← Nat.mul_add_lt_is_or hs b,
      Nat.mul_comm]

theorem nextState_eq {c : ViterbiCodec} {K s : Nat} (b : Nat) (hK : c.constraint = K + 2)
    (hs : s < 2 ^ (K + 1)) :
    NextState c s b = b * 2 ^ K + s / 2 := by
  have h2 : 2 ^ (K + 1) = 2 * 2 ^ K := by ring
  rw [NextState, hK, show K + 2 - 2 = K from rfl, Nat.shiftRight_one]
  exact or_shiftLeft_eq_add (by omega)

theorem nextState_lt {c : ViterbiCodec} {K s b : Nat} (hK : c.constraint = K + 2)
    (hs : s < 2 ^ (K + 1)) (hb : b < 2) :
    NextState c s b < 2 ^ (K + 1) := by
  rw [nextState_eq b hK hs]
  have h2 : 2 ^ (K + 1) = 2 * 2 ^ K := by ring
  have hb1 : b * 2 ^ K ≤ 1 * 2 ^ K := Nat.mul_le_mul_right _ (by omega)
  have hs2 : s / 2 < 2 ^ K := by omega
  omega

theorem outputIndex_eq {c : ViterbiCodec} {K s : Nat} (b : Nat) (hK : c.constraint = K + 2)
    (hs : s < 2 ^ (K + 1)) :
    outputIndex c s b = b * 2 ^ (K + 1) + s := by
  rw [outputIndex, hK, show K + 2 - 1 = K + 1 from rfl]
  exact or_shiftLeft_eq_add hs

theorem outputIndex_lt {c : ViterbiCodec} {K s b : Nat} (hK : c.constraint = K + 2)
    (hs : s < 2 ^ (K + 1)) (hb : b < 2) :
    outputIndex c s b < 2 ^ c.constraint := by
  rw [outputIndex_eq b hK hs, hK]
  have h2 : 2 ^ (K + 2) = 2 * 2 ^ (K + 1) := by ring
  have hb1 : b * 2 ^ (K + 1) ≤ 1 * 2 ^ (K + 1) := Nat.mul_le_mul_right _ (by omega)
  omega

theorem outputIndex_ge {c : ViterbiCodec} {K b : Nat} (s : Nat) (hK : c.constraint = K + 2)
    (hb : 2 ≤ b) :
    2 ^ c.constraint ≤ outputIndex c s b := by
  have h1 : (b <<< (c.constraint - 1)) ≤ outputIndex c s b := le_or_left s _
  have h2 : b <<< (c.constraint - 1) = b * 2 ^ (K + 1) := by
    rw [Nat.shiftLeft_eq, hK, show K + 2 - 1 = K + 1 from rfl]
  have h3 : 2 * 2 ^ (K + 1) ≤ b * 2 ^ (K + 1) := Nat.mul_le_mul_right _ hb
  have h4 : 2 ^ c.constraint = 2 * 2 ^ (K + 1) := by rw [hK]; ring
  omega

theorem predEven_eq {c : ViterbiCodec} {K : Nat} (t : Nat) (hK : c.constraint = K + 2) :
    predEven c t = 2 * (t % 2 ^ K) := by
  rw [predEven, hK, show K + 2 - 2 = K from rfl, Nat.one_shiftLeft,
      Nat.and_pow_two_sub_one_eq_mod, Nat.shiftLeft_eq, pow_one, Nat.mul_comm]

theorem predOdd_eq {c : ViterbiCodec} {K : Nat} (t : Nat) (hK : c.constraint = K + 2) :
    predOdd c t = 2 * (t % 2 ^ K) + 1 := by
  rw [predOdd, predEven_eq t hK]
  have h := Nat.mul_add_lt_is_or (show (1 : Nat) < 2 ^ 1 by decide) (t % 2 ^ K)
  rw [pow_one] at h
  rw [← h]

theorem predEven_lt {c : ViterbiCodec} {K t : Nat} (hK : c.constraint = K + 2)
    (ht : t < 2 ^ (K + 1)) :
    predEven c t < 2 ^ (K + 1) := by
  rw [predEven_eq t hK]
  have h2 : 2 ^ (K + 1) = 2 * 2 ^ K := by ring
  have hmod : t % 2 ^ K < 2 ^ K := Nat.mod_lt t (Nat.two_pow_pos K)
  omega

theorem predOdd_lt {c : ViterbiCodec} {K t : Nat} (hK : c.constraint = K + 2)
    (ht : t < 2 ^ (K + 1)) :
    predOdd c t < 2 ^ (K + 1) := by
  rw [predOdd_eq t hK]
  have h2 : 2 ^ (K + 1) = 2 * 2 ^ K := by ring
  have hmod : t % 2 ^ K < 2 ^ K := Nat.mod_lt t (Nat.two_pow_pos K)
  omega

theorem pathMetric_eq (c : ViterbiCodec) (bits prev : List Nat) (t : Nat) :
    PathMetric c bits prev t =
      if candCode c bits prev (predEven c t) t ≤ candCode c bits prev (predOdd c t) t
      then (candCode c bits prev (predEven c t) t, predEven c t)
      else (candCode c bits prev (predOdd c t) t, predOdd c t) := by
  simp only [PathMetric, candCode, predOdd, predEven, Nat.or_zero]

theorem candCode_ge (c : ViterbiCodec) (bits prev : List Nat) (srcState t : Nat) :
    prev.getD srcState 0 ≤ candCode c bits prev srcState t := by
  simp only [candCode]
  split <;> omega

theorem candCode_eq_zero_iff (c : ViterbiCodec) (bits prev : List Nat) (srcState t : Nat) :
    candCode c bits prev srcState t = 0
      ↔ prev.getD srcState 0 = 0 ∧ BranchMetric c bits srcState t = 0 := by
  simp only [candCode, INF]
  split <;> omega

theorem candidateSpec_eq_candCode {c : ViterbiCodec} {bits prev : List Nat}
    {srcState t : Nat} (h : prev.getD srcState 0 ≤ INF) :
    candidateSpec c bits prev srcState t = candCode c bits prev srcState t := by
  simp only [candidateSpec, candCode]
  by_cases hp : prev.getD srcState 0 = INF
  · rw [if_pos hp, hp, if_neg (lt_irrefl INF)]
  · have hlt : prev.getD srcState 0 < INF := lt_of_le_of_ne h hp
    rw [if_neg hp, if_pos hlt]

/-! ### Grouping of the received bits -/

theorem chunkPadFuel_irrel : ∀ (f1 f2 n : Nat) (bits : List Nat),
    bits.length ≤ f1 → bits.length ≤ f2 →
    chunkPadFuel f1 n bits = chunkPadFuel f2 n bits
  | _, _, _, [], _, _ => by simp [chunkPadFuel]
  | f1, f2, 0, _ :: _, _, _ => by cases f1 <;> cases f2 <;> rfl
  | 0, _, _ + 1, _ :: _, h1, _ => by simp at h1
  | _ + 1, 0, _ + 1, _ :: _, _, h2 => by simp at h2
  | f1 + 1, f2 + 1, n + 1, b :: bs, h1, h2 => by
    simp only [chunkPadFuel]
    congr 1
    apply chunkPadFuel_irrel
    · simp only [List.length_drop, List.length_cons]
      simp only [List.length_cons] at h1
      omega
    · simp only [List.length_drop, List.length_cons]
      simp only [List.length_cons] at h2
      omega

theorem chunkPad_cons_eq (n b : Nat) (bs : List Nat) :
    chunkPad (n + 1) (b :: bs)
      = ((b :: bs).take (n + 1) ++ List.replicate ((n + 1) - (b :: bs).length) 0)
        :: chunkPad (n + 1) ((b :: bs).drop (n + 1)) := by
  show chunkPadFuel (bs.length + 1) (n + 1) (b :: bs) = _
  simp only [chunkPadFuel]
  congr 1
  apply chunkPadFuel_irrel
  · simp only [List.length_drop, List.length_cons]
    omega
  · exact le_refl _

theorem chunkPad_nil (n : Nat) : chunkPad n [] = [] := by
  cases n <;> rfl

theorem chunkPad_cons {n : Nat} {g rest : List Nat} (hg : g.length = n + 1) :
    chunkPad (n + 1) (g ++ rest) = g :: chunkPad (n + 1) rest := by
  obtain ⟨b, bs, rfl⟩ : ∃ b bs, g = b :: bs := by
    cases g with
    | nil => simp at hg
    | cons b bs => exact ⟨b, bs, rfl⟩
  rw [List.cons_append, chunkPad_cons_eq]
  rw [← List.cons_append, List.take_left' hg, List.drop_left' hg]
  have hlen : (n + 1) - ((b :: bs) ++ rest).length = 0 := by
    simp only [List.length_append, List.length_cons]
    simp only [List.length_cons] at hg
    omega
  rw [hlen]
  simp

theorem chunkPad_length_fuel (n : Nat) :
    ∀ (fuel : Nat) (bits : List Nat), bits.length ≤ fuel →
      (chunkPad (n + 1) bits).length = (bits.length + n) / (n + 1)
  | _, [], _ => by
    simp only [chunkPad_nil, List.length_nil, Nat.zero_add]
    rw [Nat.div_eq_of_lt (show n < n + 1 by omega)]
  | 0, b :: bs, h => by simp at h
  | fuel + 1, b :: bs, h => by
    rw [chunkPad_cons_eq]
    simp only [List.length_cons]
    rw [chunkPad_length_fuel n fuel ((b :: bs).drop (n + 1)) (by
      simp only [List.length_drop, List.length_cons]
      simp only [List.length_cons] at h
      omega)]
    simp only [List.length_drop, List.length_cons]
    rcases Nat.lt_or_ge (bs.length + 1) (n + 1) with hlt | hge
    · have h0 : bs.length + 1 - (n + 1) = 0 := by omega
      rw [h0, Nat.zero_add, Nat.div_eq_of_lt (show n < n + 1 by omega),
          Nat.div_eq_of_lt_le (show 1 * (n + 1) ≤ bs.length + 1 + n by omega)
            (show bs.length + 1 + n < (1 + 1) * (n + 1) by omega)]
    · obtain ⟨L, hL⟩ : ∃ L, bs.length + 1 = (n + 1) + L := ⟨bs.length + 1 - (n + 1), by omega⟩
      rw [hL, show (n + 1) + L - (n + 1) = L by omega,
          show (n + 1) + L + n = (L + n) + (n + 1) by ring,
          Nat.add_div_right _ (show 0 < n + 1 by omega)]

theorem chunkPad_length (n : Nat) (bits : List Nat) :
    (chunkPad (n + 1) bits).length = (bits.length + n) / (n + 1) :=
  chunkPad_length_fuel n bits.length bits (le_refl _)

theorem chunkPad_pad_fuel (n : Nat) :
    ∀ (fuel : Nat) (bits : List Nat), bits.length ≤ fuel →
      bits.length % (n + 1) ≠ 0 →
      chunkPad (n + 1) bits
        = chunkPad (n + 1) (bits ++ List.replicate ((n + 1) - bits.length % (n + 1)) 0)
  | _, [], _, hmod => by simp at hmod
  | 0, b :: bs, h, _ => by simp at h
  | fuel + 1, b :: bs, h, hmod => by
    rcases Nat.lt_or_ge ((b :: bs).length) (n + 1) with hlt | hge
    · have hmodeq : (b :: bs).length % (n + 1) = (b :: bs).length := Nat.mod_eq_of_lt hlt
      rw [hmodeq]
      have hglen : ((b :: bs) ++ List.replicate ((n + 1) - (b :: bs).length) 0).length
          = n + 1 := by
        simp only [List.length_append, List.length_replicate]
        omega
      have hfull : chunkPad (n + 1)
            (((b :: bs) ++ List.replicate ((n + 1) - (b :: bs).length) 0) ++ [])
          = ((b :: bs) ++ List.replicate ((n + 1) - (b :: bs).length) 0)
              :: chunkPad (n + 1) [] := chunkPad_cons hglen
      rw [List.append_nil] at hfull
      rw [hfull, chunkPad_nil, chunkPad_cons_eq]
      rw [List.take_of_length_le (by omega), List.drop_eq_nil_of_le (by omega), chunkPad_nil]
    · have hg : ((b :: bs).take (n + 1)).length = n + 1 := by
        simp only [List.length_take, List.length_cons]
        simp only [List.length_cons] at hge
        omega
      have hsplit : (b :: bs) = (b :: bs).take (n + 1) ++ (b :: bs).drop (n + 1) :=
        (List.take_append_drop (n + 1) (b :: bs)).symm
      have hdlen : ((b :: bs).drop (n + 1)).length = (b :: bs).length - (n + 1) := by
        simp [List.length_drop]
      have hdmod : ((b :: bs).drop (n + 1)).length % (n + 1) = (b :: bs).length % (n + 1) := by
        rw [hdlen]
        obtain ⟨L, hL⟩ : ∃ L, (b :: bs).length = L + (n + 1) :=
          ⟨(b :: bs).length - (n + 1), by omega⟩
        rw [hL, Nat.add_sub_cancel, Nat.add_mod_right]
      have hrec := chunkPad_pad_fuel n fuel ((b :: bs).drop (n + 1))
        (by simp only [List.length_drop, List.length_cons]
            simp only [List.length_cons] at h
            omega)
        (by rw [hdmod]; exact hmod)
      calc chunkPad (n + 1) (b :: bs)
      _ = chunkPad (n + 1) ((b :: bs).take (n + 1) ++ (b :: bs).drop (n + 1)) := by
            rw [← hsplit]
      _ = (b :: bs).take (n + 1) :: chunkPad (n + 1) ((b :: bs).drop (n + 1)) :=
            chunkPad_cons hg
      _ = (b :: bs).take (n + 1)
            :: chunkPad (n + 1) (((b :: bs).drop (n + 1))
                ++ List.replicate ((n + 1) - ((b :: bs).drop (n + 1)).length % (n + 1)) 0) := by
            rw [hrec]
      _ = chunkPad (n + 1) ((b :: bs).take (n + 1)
            ++ (((b :: bs).drop (n + 1))
                ++ List.replicate ((n + 1) - ((b :: bs).drop (n + 1)).length % (n + 1)) 0)) :=
            (chunkPad_cons hg).symm
      _ = chunkPad (n + 1) ((b :: bs)
            ++ List.replicate ((n + 1) - (b :: bs).length % (n + 1)) 0) := by
            rw [hdmod, ← List.append_assoc, ← hsplit]

theorem chunkPad_pad (n : Nat) (bits : List Nat) (hmod : bits.length % (n + 1) ≠ 0) :
    chunkPad (n + 1) bits
      = chunkPad (n + 1) (bits ++ List.replicate ((n + 1) - bits.length % (n + 1)) 0) :=
  chunkPad_pad_fuel n bits.length bits (le_refl _) hmod

/-! ### Encode -/

theorem output_some {c : ViterbiCodec} {K s b : Nat} (hK : c.constraint = K + 2)
    (hs : s < 2 ^ (K + 1)) (hb : b < 2) :
    Output c s b = some (outputsEntry c (outputIndex c s b)) :=
  outputs_get? (outputIndex_lt hK hs hb)

theorem encodeFrom_eq_encodeT {c : ViterbiCodec} {K : Nat} (hK : c.constraint = K + 2) :
    ∀ (m : List Nat) (s : Nat), s < 2 ^ (K + 1) → (∀ b ∈ m, b < 2) →
      encodeFrom c s m = some (encodeT c s m)
  | [], _, _, _ => rfl
  | b :: bs, s, hs, hm => by
    have hb : b < 2 := hm b (List.mem_cons_self b bs)
    have hrec := encodeFrom_eq_encodeT hK bs (NextState c s b) (nextState_lt hK hs hb)
      (fun x hx => hm x (List.mem_cons_of_mem b hx))
    simp only [encodeFrom, encodeT, output_some hK hs hb, hrec,
      outputAt_eq (outputIndex_lt hK hs hb)]

theorem encodeT_length {c : ViterbiCodec} {K : Nat} (hK : c.constraint = K + 2) :
    ∀ (m : List Nat) (s : Nat), s < 2 ^ (K + 1) → (∀ b ∈ m, b < 2) →
      (encodeT c s m).length = m.length * numParityBits c
  | [], _, _, _ => by simp [encodeT]
  | b :: bs, s, hs, hm => by
    have hb : b < 2 := hm b (List.mem_cons_self b bs)
    simp only [encodeT, List.length_append, List.length_cons]
    rw [outputAt_eq (outputIndex_lt hK hs hb), outputsEntry_length,
        encodeT_length hK bs (NextState c s b) (nextState_lt hK hs hb)
          (fun x hx => hm x (List.mem_cons_of_mem b hx))]
    ring

theorem encodeFrom_none {c : ViterbiCodec} {K : Nat} (hK : c.constraint = K + 2) :
    ∀ (m : List Nat) (s : Nat), s < 2 ^ (K + 1) → (∃ b ∈ m, 2 ≤ b) →
      encodeFrom c s m = none
  | [], _, _, hbad => by simp at hbad
  | b :: bs, s, hs, hbad => by
    by_cases hb : b < 2
    · have hbad2 : ∃ x ∈ bs, 2 ≤ x := by
        obtain ⟨x, hx, h2⟩ := hbad
        rcases List.mem_cons.mp hx with rfl | hx2
        · omega
        · exact ⟨x, hx2, h2⟩
      simp only [encodeFrom, output_some hK hs hb,
        encodeFrom_none hK bs (NextState c s b) (nextState_lt hK hs hb) hbad2]
    · have hnone : Output c s b = none :=
        outputs_get?_none (outputIndex_ge s hK (by omega))
      simp only [encodeFrom, hnone]

theorem numParityBits_pos {c : ViterbiCodec} (hne : c.polynomials ≠ []) :
    0 < numParityBits c := by
  simp [numParityBits, List.length_pos, hne]

theorem chunkPad_encodeT {c : ViterbiCodec} {K : Nat} (hK : c.constraint = K + 2)
    (hne : c.polynomials ≠ []) :
    ∀ (m : List Nat) (s : Nat), s < 2 ^ (K + 1) → (∀ b ∈ m, b < 2) →
      chunkPad (numParityBits c) (encodeT c s m) = encGroups c s m
  | [], _, _, _ => by simp [encodeT, encGroups, chunkPad_nil]
  | b :: bs, s, hs, hm => by
    have hb : b < 2 := hm b (List.mem_cons_self b bs)
    obtain ⟨n, hn⟩ : ∃ n, numParityBits c = n + 1 := by
      have := numParityBits_pos hne
      exact ⟨numParityBits c - 1, by omega⟩
    have hg : (outputAt c (outputIndex c s b)).length = n + 1 := by
      rw [outputAt_eq (outputIndex_lt hK hs hb), outputsEntry_length, hn]
    simp only [encodeT, encGroups]
    rw [hn, chunkPad_cons hg, ← hn,
      chunkPad_encodeT hK hne bs (NextState c s b) (nextState_lt hK hs hb)
        (fun x hx => hm x (List.mem_cons_of_mem b hx))]

/-! ### Decode structure -/

theorem decodeSteps_cols_length (c : ViterbiCodec) :
    ∀ (gs : List (List Nat)) (pm : List Nat), (decodeSteps c gs pm).2.length = gs.length
  | [], _ => rfl
  | g :: gs, pm => by
    simp only [decodeSteps, List.length_cons, decodeSteps_cols_length c gs]

theorem tracebackRev_length (c : ViterbiCodec) :
    ∀ (cols : List (List Nat)) (st : Nat), (tracebackRev c cols st).length = cols.length
  | [], _ => rfl
  | col :: rest, st => by
    simp only [tracebackRev, List.length_cons, tracebackRev_length c rest]

theorem tbEnd_nil (st : Nat) : tbEnd [] st = st := rfl

theorem tbEnd_cons (col : List Nat) (cols : List (List Nat)) (st : Nat) :
    tbEnd (col :: cols) st = tbEnd cols (col.getD st 0) := rfl

theorem tbEnd_append (xs ys : List (List Nat)) (st : Nat) :
    tbEnd (xs ++ ys) st = tbEnd ys (tbEnd xs st) := by
  simp [tbEnd, List.foldl_append]

theorem tracebackRev_append (c : ViterbiCodec) :
    ∀ (xs ys : List (List Nat)) (st : Nat),
      tracebackRev c (xs ++ ys) st = tracebackRev c xs st ++ tracebackRev c ys (tbEnd xs st)
  | [], ys, st => by simp [tracebackRev, tbEnd]
  | x :: xs, ys, st => by
    simp only [List.cons_append, tracebackRev, tbEnd_cons, List.append_eq]
    rw [tracebackRev_append c xs ys (x.getD st 0)]

/-! ### The first-minimum scan -/

theorem minIndex_inv (l : List Nat) (j : Nat) (hj : j < l.length) (hz : l.getD j 0 = 0)
    (hnz : ∀ i, i < l.length → i ≠ j → l.getD i 0 ≠ 0) :
    ∀ k, k ≤ l.length →
      ((List.range k).foldl (minIndexStep l) 0 = j ∨
        0 < l.getD ((List.range k).foldl (minIndexStep l) 0) 0)
      ∧ (j < k → (List.range k).foldl (minIndexStep l) 0 = j)
  | 0, _ => by
    refine ⟨?_, fun h => by omega⟩
    simp only [List.range_zero, List.foldl_nil]
    by_cases h0 : j = 0
    · exact Or.inl h0.symm
    · exact Or.inr (Nat.pos_of_ne_zero (hnz 0 (by omega) (fun h => h0 h.symm)))
  | k + 1, hk => by
    obtain ⟨IH1, IH2⟩ := minIndex_inv l j hj hz hnz k (by omega)
    rw [List.range_succ, List.foldl_append, List.foldl_cons, List.foldl_nil]
    set b := (List.range k).foldl (minIndexStep l) 0 with hb
    simp only [minIndexStep]
    rcases Nat.lt_trichotomy j k with hjk | hjk | hjk
    · have hbj : b = j := IH2 hjk
      rw [hbj, hz, if_neg (by omega)]
      exact ⟨Or.inl rfl, fun _ => rfl⟩
    · rw [← hjk]
      rcases IH1 with hbj | hbpos
      · rw [hbj, hz, if_neg (by omega)]
        exact ⟨Or.inl rfl, fun _ => rfl⟩
      · rw [hz, if_pos hbpos]
        exact ⟨Or.inl rfl, fun _ => rfl⟩
    · have hkpos : l.getD k 0 ≠ 0 := hnz k (by omega) (by omega)
      rcases IH1 with hbj | hbpos
      · rw [hbj, hz, if_neg (by omega)]
        exact ⟨Or.inl rfl, fun _ => rfl⟩
      · by_cases hc : l.getD k 0 < l.getD b 0
        · rw [if_pos hc]
          exact ⟨Or.inr (Nat.pos_of_ne_zero hkpos), fun h => by omega⟩
        · rw [if_neg hc]
          exact ⟨Or.inr hbpos, fun h => by omega⟩

theorem minIndex_eq (l : List Nat) (j : Nat) (hj : j < l.length) (hz : l.getD j 0 = 0)
    (hnz : ∀ i, i < l.length → i ≠ j → l.getD i 0 ≠ 0) :
    minIndex l = j := by
  have hdef : minIndex l = (List.range l.length).foldl (minIndexStep l) 0 := rfl
  rw [hdef]
  exact (minIndex_inv l j hj hz hnz l.length (le_refl _)).2 hj

/-! ### The forward-pass invariant: with an error-free received stream and an
odd polynomial, exactly the true path state has metric zero at every step -/

theorem xor_one_ne (x : Nat) : x ^^^ 1 ≠ x := by
  intro h
  have h1 : x ^^^ (x ^^^ 1) = x ^^^ x := congrArg (x ^^^ ·) h
  rw [← Nat.xor_assoc, Nat.xor_self, Nat.zero_xor] at h1
  exact absurd h1 (by omega)

theorem shiftK_eq_div {c : ViterbiCodec} {K : Nat} (t : Nat) (hK : c.constraint = K + 2) :
    t >>> (c.constraint - 2) = t / 2 ^ K := by
  rw [hK, show K + 2 - 2 = K from rfl, Nat.shiftRight_eq_div_pow]

theorem div_lt_two {K t : Nat} (ht : t < 2 ^ (K + 1)) : t / 2 ^ K < 2 := by
  rw [Nat.div_lt_iff_lt_mul (Nat.two_pow_pos K)]
  have h2 : 2 ^ (K + 1) = 2 * 2 ^ K := by ring
  omega

theorem nextState_div {c : ViterbiCodec} {K s : Nat} (b : Nat) (hK : c.constraint = K + 2)
    (hs : s < 2 ^ (K + 1)) :
    NextState c s b / 2 ^ K = b := by
  have h2 : 2 ^ (K + 1) = 2 * 2 ^ K := by ring
  rw [nextState_eq b hK hs, Nat.mul_comm b (2 ^ K),
      Nat.mul_add_div (Nat.two_pow_pos K), Nat.div_eq_of_lt (by omega), Nat.add_zero]

theorem nextState_highBit {c : ViterbiCodec} {K s : Nat} (b : Nat) (hK : c.constraint = K + 2)
    (hs : s < 2 ^ (K + 1)) :
    NextState c s b >>> (c.constraint - 2) = b := by
  rw [shiftK_eq_div _ hK, nextState_div b hK hs]

theorem branchMetric_self {c : ViterbiCodec} {K s b : Nat} (hK : c.constraint = K + 2)
    (hs : s < 2 ^ (K + 1)) :
    BranchMetric c (outputAt c (outputIndex c s b)) s (NextState c s b) = 0 := by
  rw [BranchMetric, nextState_highBit b hK hs]
  exact hammingDistance_self _

theorem nextState_pred {c : ViterbiCodec} {K t e : Nat} (hK : c.constraint = K + 2)
    (ht : t < 2 ^ (K + 1)) (he : e < 2) :
    NextState c (2 * (t % 2 ^ K) + e) (t / 2 ^ K) = t := by
  have h2 : 2 ^ (K + 1) = 2 * 2 ^ K := by ring
  have hmod := Nat.mod_lt t (Nat.two_pow_pos K)
  have hp : 2 * (t % 2 ^ K) + e < 2 ^ (K + 1) := by omega
  rw [nextState_eq (t / 2 ^ K) hK hp, show (2 * (t % 2 ^ K) + e) / 2 = t % 2 ^ K by omega,
      Nat.mul_comm]
  exact Nat.div_add_mod t (2 ^ K)

theorem nextState_mod {c : ViterbiCodec} {K s : Nat} (b : Nat) (hK : c.constraint = K + 2)
    (hs : s < 2 ^ (K + 1)) :
    NextState c s b % 2 ^ K = s / 2 := by
  have h2 : 2 ^ (K + 1) = 2 * 2 ^ K := by ring
  rw [nextState_eq b hK hs, Nat.mul_comm b (2 ^ K), Nat.mul_add_mod,
      Nat.mod_eq_of_lt (by omega)]

theorem outputsEntry_flip {c : ViterbiCodec} {K s : Nat} (hK : c.constraint = K + 2)
    (hs : s < 2 ^ (K + 1)) (hodd : ∃ p ∈ c.polynomials, p % 2 = 1) :
    outputsEntry c (2 ^ (K + 1) + s) ≠ outputsEntry c s := by
  obtain ⟨p, hp, hpodd⟩ := hodd
  obtain ⟨j, hj⟩ := List.get?_of_mem hp
  intro heq
  have h1 : (outputsEntry c (2 ^ (K + 1) + s)).get? j
      = some (convOutputAux c.constraint (2 ^ (K + 1) + s) (ReverseBits c.constraint p) 0) := by
    rw [outputsEntry, List.get?_map, hj]
    rfl
  have h2 : (outputsEntry c s).get? j
      = some (convOutputAux c.constraint s (ReverseBits c.constraint p) 0) := by
    rw [outputsEntry, List.get?_map, hj]
    rfl
  rw [heq, h2] at h1
  have h3 := Option.some.inj h1
  have h4 : convOutputAux c.constraint (2 ^ (K + 1) + s) (ReverseBits c.constraint p) 0
      = convOutputAux c.constraint s (ReverseBits c.constraint p) 0
        ^^^ ((ReverseBits c.constraint p >>> (K + 1)) &&& 1) := by
    rw [hK]
    exact convOutputAux_add_top (K + 1) s _ 0 hs
  have h5 : (ReverseBits c.constraint p >>> (K + 1)) &&& 1 = 1 := by
    rw [hK, show K + 2 = (K + 1) + 1 from rfl, reverseBits_top (K + 1) p, Nat.and_one_is_mod]
    omega
  rw [h5, h3] at h4
  exact xor_one_ne _ h4.symm

theorem candCode_true_pred {c : ViterbiCodec} {K s : Nat} (b : Nat) {pm : List Nat}
    (hK : c.constraint = K + 2) (hs : s < 2 ^ (K + 1)) (h0 : pm.getD s 0 = 0) :
    candCode c (outputAt c (outputIndex c s b)) pm s (NextState c s b) = 0 := by
  simp only [candCode]
  rw [h0, if_pos (show 0 < INF by decide), branchMetric_self hK hs, Nat.zero_add]

theorem pathMetric_true_state {c : ViterbiCodec} {K : Nat} (hK : c.constraint = K + 2)
    {pm : List Nat} {s b : Nat} (hs : s < 2 ^ (K + 1)) (hb : b < 2)
    (hinv : ∀ u, u < 2 ^ (K + 1) → (pm.getD u 0 = 0 ↔ u = s)) :
    PathMetric c (outputAt c (outputIndex c s b)) pm (NextState c s b) = (0, s) := by
  have hs' : NextState c s b < 2 ^ (K + 1) := nextState_lt hK hs hb
  have h2 : 2 ^ (K + 1) = 2 * 2 ^ K := by ring
  have hpe : predEven c (NextState c s b) = 2 * (s / 2) := by
    rw [predEven_eq _ hK, nextState_mod b hK hs]
  have hpo : predOdd c (NextState c s b) = 2 * (s / 2) + 1 := by
    rw [predOdd_eq _ hK, nextState_mod b hK hs]
  have hpelt : predEven c (NextState c s b) < 2 ^ (K + 1) := predEven_lt hK hs'
  have hpolt : predOdd c (NextState c s b) < 2 ^ (K + 1) := predOdd_lt hK hs'
  have hsz : pm.getD s 0 = 0 := (hinv s hs).mpr rfl
  rw [pathMetric_eq]
  rcases Nat.mod_two_eq_zero_or_one s with hpar | hpar
  · have hse : predEven c (NextState c s b) = s := by omega
    have hone : predOdd c (NextState c s b) ≠ s := by omega
    have hcE : candCode c (outputAt c (outputIndex c s b)) pm
        (predEven c (NextState c s b)) (NextState c s b) = 0 := by
      rw [hse]
      exact candCode_true_pred b hK hs hsz
    have hcO : candCode c (outputAt c (outputIndex c s b)) pm
        (predOdd c (NextState c s b)) (NextState c s b) ≠ 0 := by
      intro h
      exact hone ((hinv _ hpolt).mp ((candCode_eq_zero_iff _ _ _ _ _).mp h).1)
    rw [hcE, if_pos (Nat.zero_le _), hse]
  · have hso : predOdd c (NextState c s b) = s := by omega
    have hone : predEven c (NextState c s b) ≠ s := by omega
    have hcO : candCode c (outputAt c (outputIndex c s b)) pm
        (predOdd c (NextState c s b)) (NextState c s b) = 0 := by
      rw [hso]
      exact candCode_true_pred b hK hs hsz
    have hcE : candCode c (outputAt c (outputIndex c s b)) pm
        (predEven c (NextState c s b)) (NextState c s b) ≠ 0 := by
      intro h
      exact hone ((hinv _ hpelt).mp ((candCode_eq_zero_iff _ _ _ _ _).mp h).1)
    rw [hcO, if_neg (by omega), hso]

theorem pathMetric_other_state {c : ViterbiCodec} {K : Nat} (hK : c.constraint = K + 2)
    (hodd : ∃ p ∈ c.polynomials, p % 2 = 1) {pm : List Nat} {s b t : Nat}
    (hs : s < 2 ^ (K + 1)) (hb : b < 2) (ht : t < 2 ^ (K + 1))
    (hts : t ≠ NextState c s b)
    (hinv : ∀ u, u < 2 ^ (K + 1) → (pm.getD u 0 = 0 ↔ u = s)) :
    (PathMetric c (outputAt c (outputIndex c s b)) pm t).1 ≠ 0 := by
  have key : ∀ e, e < 2 → candCode c (outputAt c (outputIndex c s b)) pm
      (2 * (t % 2 ^ K) + e) t ≠ 0 := by
    intro e he hzero
    obtain ⟨hpm0, hbm0⟩ := (candCode_eq_zero_iff _ _ _ _ _).mp hzero
    have h2 : 2 ^ (K + 1) = 2 * 2 ^ K := by ring
    have hmodlt := Nat.mod_lt t (Nat.two_pow_pos K)
    have hplt : 2 * (t % 2 ^ K) + e < 2 ^ (K + 1) := by omega
    have hps : 2 * (t % 2 ^ K) + e = s := (hinv _ hplt).mp hpm0
    have hinplt : t / 2 ^ K < 2 := div_lt_two ht
    rw [hps, BranchMetric, shiftK_eq_div t hK] at hbm0
    by_cases hdb : t / 2 ^ K = b
    · apply hts
      have hns := nextState_pred hK ht he
      rw [hps, hdb] at hns
      exact hns.symm
    · have hlen2 : (outputAt c (outputIndex c s b)).length
          = (outputAt c (outputIndex c s (t / 2 ^ K))).length := by
        rw [outputAt_eq (outputIndex_lt hK hs hb), outputsEntry_length,
            outputAt_eq (outputIndex_lt hK hs hinplt), outputsEntry_length]
      have heq := eq_of_hammingDistance_zero hlen2 hbm0
      rw [outputAt_eq (outputIndex_lt hK hs hb),
          outputAt_eq (outputIndex_lt hK hs hinplt)] at heq
      have hb0 : outputIndex c s 0 = s := by
        rw [outputIndex_eq 0 hK hs]
        omega
      have hb1 : outputIndex c s 1 = 2 ^ (K + 1) + s := by
        rw [outputIndex_eq 1 hK hs]
        omega
      obtain ⟨d, hd⟩ : ∃ d, t / 2 ^ K = d := ⟨_, rfl⟩
      rw [hd] at hinplt hdb heq
      clear hd
      have hd01 : d = 0 ∨ d = 1 := by omega
      have hb01 : b = 0 ∨ b = 1 := by omega
      rcases hd01 with hdv | hdv <;> rcases hb01 with hbv | hbv
      · exact hdb (by rw [hdv, hbv])
      · rw [hbv, hdv, hb0, hb1] at heq
        exact outputsEntry_flip hK hs hodd heq
      · rw [hbv, hdv, hb0, hb1] at heq
        exact outputsEntry_flip hK hs hodd heq.symm
      · exact hdb (by rw [hdv, hbv])
  rw [pathMetric_eq]
  have hpe := predEven_eq t hK
  have hpo := predOdd_eq t hK
  split
  · show candCode c (outputAt c (outputIndex c s b)) pm (predEven c t) t ≠ 0
    rw [hpe]
    have h0 := key 0 (by omega)
    rw [Nat.add_zero] at h0
    exact h0
  · show candCode c (outputAt c (outputIndex c s b)) pm (predOdd c t) t ≠ 0
    rw [hpo]
    exact key 1 (by omega)

theorem updateMetrics_fst_len (c : ViterbiCodec) (g pm : List Nat) :
    (UpdatePathMetrics c g pm).1.length = pm.length := by
  simp [UpdatePathMetrics]

theorem updateMetrics_fst_getD {c : ViterbiCodec} {g pm : List Nat} {t : Nat}
    (ht : t < pm.length) :
    (UpdatePathMetrics c g pm).1.getD t 0 = (PathMetric c g pm t).1 :=
  getD_map_range _ ht _

theorem updateMetrics_snd_getD {c : ViterbiCodec} {g pm : List Nat} {t : Nat}
    (ht : t < pm.length) :
    (UpdatePathMetrics c g pm).2.getD t 0 = (PathMetric c g pm t).2 :=
  getD_map_range _ ht _

theorem encFinal_lt {c : ViterbiCodec} {K : Nat} (hK : c.constraint = K + 2) :
    ∀ (m : List Nat) (s : Nat), s < 2 ^ (K + 1) → (∀ b ∈ m, b < 2) →
      encFinal c s m < 2 ^ (K + 1)
  | [], _, hs, _ => hs
  | b :: bs, s, hs, hm =>
    encFinal_lt hK bs (NextState c s b)
      (nextState_lt hK hs (hm b (List.mem_cons_self b bs)))
      (fun x hx => hm x (List.mem_cons_of_mem b hx))

/-- The full forward pass on an error-free encoded stream: the final metric
vector is zero exactly at the true final state, and the traceback from that
state recovers the message (reversed) and ends at the start state. -/
theorem decode_loop {c : ViterbiCodec} {K : Nat} (hK : c.constraint = K + 2)
    (hodd : ∃ p ∈ c.polynomials, p % 2 = 1) :
    ∀ (m : List Nat) (s : Nat) (pm : List Nat),
      (∀ b ∈ m, b < 2) → s < 2 ^ (K + 1) → pm.length = 2 ^ (K + 1) →
      (∀ u, u < 2 ^ (K + 1) → (pm.getD u 0 = 0 ↔ u = s)) →
      (decodeSteps c (encGroups c s m) pm).1.length = 2 ^ (K + 1)
      ∧ (∀ u, u < 2 ^ (K + 1) →
          ((decodeSteps c (encGroups c s m) pm).1.getD u 0 = 0 ↔ u = encFinal c s m))
      ∧ tracebackRev c (decodeSteps c (encGroups c s m) pm).2.reverse (encFinal c s m)
          = m.reverse
      ∧ tbEnd (decodeSteps c (encGroups c s m) pm).2.reverse (encFinal c s m) = s
  | [], s, pm, _, _, hlen, hinv => by
    simp only [encGroups, decodeSteps, encFinal, List.reverse_nil, tracebackRev, tbEnd_nil]
    exact ⟨hlen, hinv, trivial, trivial⟩
  | b :: bs, s, pm, hm, hs, hlen, hinv => by
    have hb : b < 2 := hm b (List.mem_cons_self b bs)
    have hs' : NextState c s b < 2 ^ (K + 1) := nextState_lt hK hs hb
    have hlen1 : (UpdatePathMetrics c (outputAt c (outputIndex c s b)) pm).1.length
        = 2 ^ (K + 1) := by
      rw [updateMetrics_fst_len, hlen]
    have hinv1 : ∀ u, u < 2 ^ (K + 1) →
        ((UpdatePathMetrics c (outputAt c (outputIndex c s b)) pm).1.getD u 0 = 0
          ↔ u = NextState c s b) := by
      intro u hu
      rw [updateMetrics_fst_getD (by rw [hlen]; exact hu)]
      constructor
      · intro h0
        by_contra hne
        exact pathMetric_other_state hK hodd hs hb hu hne hinv h0
      · intro h
        rw [h, pathMetric_true_state hK hs hb hinv]
    have hcol : (UpdatePathMetrics c (outputAt c (outputIndex c s b)) pm).2.getD
        (NextState c s b) 0 = s := by
      rw [updateMetrics_snd_getD (by rw [hlen]; exact hs'),
          pathMetric_true_state hK hs hb hinv]
    obtain ⟨IH1, IH2, IH3, IH4⟩ := decode_loop hK hodd bs (NextState c s b)
      (UpdatePathMetrics c (outputAt c (outputIndex c s b)) pm).1
      (fun x hx => hm x (List.mem_cons_of_mem b hx)) hs' hlen1 hinv1
    simp only [encGroups, decodeSteps, encFinal, List.reverse_cons]
    refine ⟨IH1, IH2, ?_, ?_⟩
    · rw [tracebackRev_append, IH3, IH4]
      simp only [tracebackRev, nextState_highBit b hK hs]
    · rw [tbEnd_append, IH4, tbEnd_cons, tbEnd_nil]
      exact hcol


theorem initMetrics_eq {c : ViterbiCodec} {K : Nat} (hK : c.constraint = K + 2) :
    initMetrics c = 0 :: List.replicate (2 ^ (K + 1) - 1) INF := by
  rw [initMetrics, hK, show K + 2 - 1 = K + 1 from rfl, Nat.one_shiftLeft]
  obtain ⟨N, hN⟩ : ∃ N, 2 ^ (K + 1) = N + 1 :=
    ⟨2 ^ (K + 1) - 1, by have := Nat.two_pow_pos (K + 1); omega⟩
  rw [hN, List.replicate_succ, List.set_cons_zero, Nat.add_sub_cancel]

theorem initMetrics_length {c : ViterbiCodec} {K : Nat} (hK : c.constraint = K + 2) :
    (initMetrics c).length = 2 ^ (K + 1) := by
  rw [initMetrics_eq hK]
  simp only [List.length_cons, List.length_replicate]
  have := Nat.two_pow_pos (K + 1)
  omega

theorem getD_replicate (a d : Nat) : ∀ (n i : Nat), i < n → (List.replicate n a).getD i d = a
  | n + 1, 0, _ => rfl
  | n + 1, i + 1, h => by
    rw [List.replicate_succ, List.getD_cons_succ]
    exact getD_replicate a d n i (by omega)

theorem initMetrics_inv {c : ViterbiCodec} {K : Nat} (hK : c.constraint = K + 2) :
    ∀ u, u < 2 ^ (K + 1) → ((initMetrics c).getD u 0 = 0 ↔ u = 0) := by
  intro u hu
  rw [initMetrics_eq hK]
  cases u with
  | zero => simp
  | succ v =>
    rw [List.getD_cons_succ, getD_replicate _ _ _ _ (by omega)]
    constructor
    · intro h
      exact absurd h (by decide)
    · intro h
      exact absurd h (by omega)

/-- Error-free round trip: with at least one odd polynomial, decoding the
exact encoder output recovers the message, with no truncation needed. -/
theorem decode_encodeT {c : ViterbiCodec} (hv : validCodec c)
    (hodd : ∃ p ∈ c.polynomials, p % 2 = 1)
    (m : List Nat) (hm : ∀ b ∈ m, b < 2) :
    Decode c (encodeT c 0 m) = m := by
  obtain ⟨hK2, hne, hpoly⟩ := hv
  obtain ⟨K, hK⟩ : ∃ K, c.constraint = K + 2 := ⟨c.constraint - 2, by omega⟩
  have hpos : (0 : Nat) < 2 ^ (K + 1) := Nat.two_pow_pos _
  have hgroups := chunkPad_encodeT hK hne m 0 hpos hm
  obtain ⟨hlenF, hinvF, htb, _⟩ := decode_loop hK hodd m 0 (initMetrics c) hm hpos
    (initMetrics_length hK) (initMetrics_inv hK)
  have hsF : encFinal c 0 m < 2 ^ (K + 1) := encFinal_lt hK m 0 hpos hm
  have hmin : minIndex (decodeSteps c (encGroups c 0 m) (initMetrics c)).1
      = encFinal c 0 m := by
    apply minIndex_eq
    · rw [hlenF]
      exact hsF
    · exact (hinvF _ hsF).mpr rfl
    · intro i hi hne2
      rw [hlenF] at hi
      intro h0
      exact hne2 ((hinvF i hi).mp h0)
  simp only [Decode]
  rw [hgroups, hmin, htb, List.reverse_reverse]

/-! ### Auxiliary top-level facts used by the claims -/

theorem decode_length {c : ViterbiCodec} (hne : c.polynomials ≠ []) (bits : List Nat) :
    (Decode c bits).length = (bits.length + numParityBits c - 1) / numParityBits c := by
  obtain ⟨n, hn⟩ : ∃ n, numParityBits c = n + 1 :=
    ⟨numParityBits c - 1, by have := numParityBits_pos hne; omega⟩
  simp only [Decode, List.length_reverse]
  rw [tracebackRev_length, List.length_reverse, decodeSteps_cols_length, hn, chunkPad_length]
  congr 1

theorem decode_nil (c : ViterbiCodec) : Decode c [] = [] := by
  simp only [Decode, chunkPad_nil, decodeSteps, List.reverse_nil, tracebackRev]


/-! ### Single-error tolerance of the (3, {7, 5}) codec: structural lemmas -/

theorem flipBit_length (l : List Nat) (i : Nat) : (flipBit l i).length = l.length := by
  simp [flipBit]

theorem flipBit_append_left : ∀ (l1 l2 : List Nat) (i : Nat), i < l1.length →
    flipBit (l1 ++ l2) i = flipBit l1 i ++ l2
  | [], _, i, h => by simp at h
  | a :: as, l2, 0, _ => by simp [flipBit]
  | a :: as, l2, i + 1, h => by
    have hi : i < as.length := by
      simp only [List.length_cons] at h
      omega
    have IH := flipBit_append_left as l2 i hi
    simp only [flipBit] at IH ⊢
    simp only [List.cons_append, List.getD_cons_succ, List.set_cons_succ, IH]

theorem flipBit_append_right : ∀ (l1 l2 : List Nat) (i : Nat), l1.length ≤ i →
    flipBit (l1 ++ l2) i = l1 ++ flipBit l2 (i - l1.length)
  | [], l2, i, _ => by simp
  | a :: as, l2, 0, h => by simp at h
  | a :: as, l2, i + 1, h => by
    have hi : as.length ≤ i := by
      simp only [List.length_cons] at h
      omega
    have IH := flipBit_append_right as l2 i hi
    have hidx : i + 1 - (a :: as).length = i - as.length := by
      simp only [List.length_cons]
      omega
    rw [hidx]
    simp only [flipBit] at IH ⊢
    simp only [List.cons_append, List.getD_cons_succ, List.set_cons_succ, IH]

theorem encodeT_append (c : ViterbiCodec) :
    ∀ (m1 m2 : List Nat) (s : Nat),
      encodeT c s (m1 ++ m2) = encodeT c s m1 ++ encodeT c (encFinal c s m1) m2
  | [], m2, s => by simp [encodeT, encFinal]
  | b :: bs, m2, s => by
    simp only [List.cons_append, List.append_eq, encodeT, encFinal, List.append_assoc,
      encodeT_append c bs m2 (NextState c s b)]

theorem chunkPad_encodeT_append {c : ViterbiCodec} {K : Nat} (hK : c.constraint = K + 2)
    (hne : c.polynomials ≠ []) :
    ∀ (m : List Nat) (s : Nat) (X : List Nat), s < 2 ^ (K + 1) → (∀ b ∈ m, b < 2) →
      chunkPad (numParityBits c) (encodeT c s m ++ X)
        = encGroups c s m ++ chunkPad (numParityBits c) X
  | [], _, X, _, _ => by simp [encodeT, encGroups]
  | b :: bs, s, X, hs, hm => by
    have hb : b < 2 := hm b (List.mem_cons_self b bs)
    obtain ⟨n, hn⟩ : ∃ n, numParityBits c = n + 1 :=
      ⟨numParityBits c - 1, by have := numParityBits_pos hne; omega⟩
    have hg : (outputAt c (outputIndex c s b)).length = n + 1 := by
      rw [outputAt_eq (outputIndex_lt hK hs hb), outputsEntry_length, hn]
    simp only [encodeT, encGroups, List.append_assoc]
    rw [hn, chunkPad_cons hg, ← hn,
      chunkPad_encodeT_append hK hne bs (NextState c s b) X (nextState_lt hK hs hb)
        (fun x hx => hm x (List.mem_cons_of_mem b hx))]
    rfl

theorem decodeSteps_append (c : ViterbiCodec) :
    ∀ (gs1 gs2 : List (List Nat)) (pm : List Nat),
      decodeSteps c (gs1 ++ gs2) pm
        = ((decodeSteps c gs2 (decodeSteps c gs1 pm).1).1,
           (decodeSteps c gs1 pm).2 ++ (decodeSteps c gs2 (decodeSteps c gs1 pm).1).2)
  | [], gs2, pm => by simp [decodeSteps]
  | g :: gs, gs2, pm => by
    simp only [List.cons_append, decodeSteps, List.append_eq]
    rw [decodeSteps_append c gs gs2 (UpdatePathMetrics c g pm).1]

/-! ### The first-minimum scan at a strict unique minimum -/

theorem minIndex_inv_strict (l : List Nat) (j : Nat) (hj : j < l.length)
    (hmin : ∀ i, i < l.length → i ≠ j → l.getD j 0 < l.getD i 0) :
    ∀ k, k ≤ l.length →
      ((List.range k).foldl (minIndexStep l) 0 = j ∨
        l.getD j 0 < l.getD ((List.range k).foldl (minIndexStep l) 0) 0)
      ∧ (j < k → (List.range k).foldl (minIndexStep l) 0 = j)
  | 0, _ => by
    refine ⟨?_, fun h => absurd h (by omega)⟩
    simp only [List.range_zero, List.foldl_nil]
    by_cases h0 : j = 0
    · exact Or.inl h0.symm
    · exact Or.inr (hmin 0 (by omega) fun h => h0 h.symm)
  | k + 1, hk => by
    obtain ⟨IH1, IH2⟩ := minIndex_inv_strict l j hj hmin k (by omega)
    rw [List.range_succ, List.foldl_append, List.foldl_cons, List.foldl_nil]
    set b := (List.range k).foldl (minIndexStep l) 0 with hb
    simp only [minIndexStep]
    rcases Nat.lt_trichotomy j k with hjk | hjk | hjk
    · have hbj : b = j := IH2 hjk
      have hkg : l.getD j 0 < l.getD k 0 := hmin k (by omega) (by omega)
      rw [hbj, if_neg (by omega)]
      exact ⟨Or.inl rfl, fun _ => rfl⟩
    · rw [← hjk]
      rcases IH1 with hbj | hlt
      · rw [hbj, if_neg (by omega)]
        exact ⟨Or.inl rfl, fun _ => rfl⟩
      · rw [if_pos hlt]
        exact ⟨Or.inl rfl, fun _ => rfl⟩
    · have hkg : l.getD j 0 < l.getD k 0 := hmin k (by omega) (by omega)
      rcases IH1 with hbj | hlt
      · rw [hbj, if_neg (by omega)]
        exact ⟨Or.inl rfl, fun h => absurd h (by omega)⟩
      · by_cases hc : l.getD k 0 < l.getD b 0
        · rw [if_pos hc]
          exact ⟨Or.inr hkg, fun h => absurd h (by omega)⟩
        · rw [if_neg hc]
          exact ⟨Or.inr hlt, fun h => absurd h (by omega)⟩

theorem minIndex_eq_strict (l : List Nat) (j : Nat) (hj : j < l.length)
    (hmin : ∀ i, i < l.length → i ≠ j → l.getD j 0 < l.getD i 0) :
    minIndex l = j := by
  have hdef : minIndex l = (List.range l.length).foldl (minIndexStep l) 0 := rfl
  rw [hdef]
  exact (minIndex_inv_strict l j hj hmin l.length (le_refl _)).2 hj

/-! ### Candidate-metric bounds -/

theorem candCode_of_lt {c : ViterbiCodec} {bits prev : List Nat} {p t : Nat}
    (h : prev.getD p 0 < INF) :
    candCode c bits prev p t = prev.getD p 0 + BranchMetric c bits p t := by
  simp only [candCode]
  rw [if_pos h]

theorem candCode_lb {c : ViterbiCodec} {bits prev : List Nat} {p t lo1 lo2 : Nat}
    (h1 : lo1 ≤ prev.getD p 0) (h2 : lo2 ≤ BranchMetric c bits p t)
    (hI : lo1 + lo2 ≤ INF) :
    lo1 + lo2 ≤ candCode c bits prev p t := by
  simp only [candCode]
  split
  · omega
  · rename_i hge
    have hINF : INF ≤ prev.getD p 0 := Nat.le_of_not_lt hge
    omega

theorem pathMetric_fst_lb (c : ViterbiCodec) (bits prev : List Nat) (t lo : Nat)
    (hE : lo ≤ candCode c bits prev (predEven c t) t)
    (hO : lo ≤ candCode c bits prev (predOdd c t) t) :
    lo ≤ (PathMetric c bits prev t).1 := by
  rw [pathMetric_eq]
  split
  · exact hE
  · exact hO

theorem pathMetric_pick_even (c : ViterbiCodec) (bits prev : List Nat) (t a : Nat)
    (hE : candCode c bits prev (predEven c t) t = a)
    (hO : a < candCode c bits prev (predOdd c t) t) :
    PathMetric c bits prev t = (a, predEven c t) := by
  rw [pathMetric_eq, hE, if_pos (Nat.le_of_lt hO)]

theorem pathMetric_pick_odd (c : ViterbiCodec) (bits prev : List Nat) (t a : Nat)
    (hO : candCode c bits prev (predOdd c t) t = a)
    (hE : a < candCode c bits prev (predEven c t) t) :
    PathMetric c bits prev t = (a, predOdd c t) := by
  rw [pathMetric_eq, hO, if_neg (Nat.not_le.mpr hE)]

/-! ### Finite facts of the (3, {7, 5}) trellis, checked by evaluation -/

theorem d75_nextState_lt : ∀ s, s < 4 → ∀ b, b < 2 → NextState codec75 s b < 4 := by
  decide

theorem d75_nextState_shift : ∀ s, s < 4 → ∀ b, b < 2 →
    NextState codec75 s b >>> (codec75.constraint - 2) = b := by
  decide

theorem d75_next_ne : ∀ s, s < 4 → ∀ b, b < 2 →
    NextState codec75 s b ≠ NextState codec75 s (1 - b) := by
  decide

theorem d75_preds_lt : ∀ u, u < 4 →
    predEven codec75 u < 4 ∧ predOdd codec75 u < 4 := by
  decide

theorem d75_pred_child : ∀ s, s < 4 → ∀ b, b < 2 → ∀ u, u < 4 →
    (predEven codec75 u = s ∨ predOdd codec75 u = s) →
    u = NextState codec75 s b ∨ u = NextState codec75 s (1 - b) := by
  decide

theorem d75_true_pred : ∀ s, s < 4 → ∀ b, b < 2 →
    (predEven codec75 (NextState codec75 s b) = s
      ∧ predOdd codec75 (NextState codec75 s b) ≠ s)
    ∨ (predOdd codec75 (NextState codec75 s b) = s
      ∧ predEven codec75 (NextState codec75 s b) ≠ s) := by
  decide

theorem d75_out_len : ∀ s, s < 4 → ∀ b, b < 2 →
    (outputAt codec75 (outputIndex codec75 s b)).length = 2 := by
  decide

theorem d75_bm_true : ∀ s, s < 4 → ∀ b, b < 2 →
    BranchMetric codec75 (outputAt codec75 (outputIndex codec75 s b)) s
      (NextState codec75 s b) = 0 := by
  decide

set_option synthInstance.maxSize 2000 in
theorem d75_bm_wrong : ∀ s, s < 4 → ∀ b, b < 2 → ∀ u, u < 4 →
    (predEven codec75 u = s ∨ predOdd codec75 u = s) → u ≠ NextState codec75 s b →
    BranchMetric codec75 (outputAt codec75 (outputIndex codec75 s b)) s u = 2 := by
  decide

theorem d75_bm_flip_true : ∀ s, s < 4 → ∀ b, b < 2 → ∀ i, i < 2 →
    BranchMetric codec75 (flipBit (outputAt codec75 (outputIndex codec75 s b)) i) s
      (NextState codec75 s b) = 1 := by
  decide

set_option synthInstance.maxSize 2000 in
theorem d75_bm_flip_wrong : ∀ s, s < 4 → ∀ b, b < 2 → ∀ i, i < 2 → ∀ u, u < 4 →
    (predEven codec75 u = s ∨ predOdd codec75 u = s) → u ≠ NextState codec75 s b →
    1 ≤ BranchMetric codec75 (flipBit (outputAt codec75 (outputIndex codec75 s b)) i) s u := by
  decide

set_option synthInstance.maxSize 2000 in
theorem d75_bm_tstar : ∀ s, s < 4 → ∀ b, b < 2 → ∀ b2, b2 < 2 → ∀ u, u < 4 →
    1 ≤ BranchMetric codec75
        (outputAt codec75 (outputIndex codec75 (NextState codec75 s b) b2))
        (NextState codec75 s (1 - b)) u := by
  decide

set_option synthInstance.maxSize 2000 in
theorem d75_sib_recover : ∀ s, s < 4 → ∀ b, b < 2 → ∀ b2, b2 < 2 →
    (predEven codec75 (NextState codec75 (NextState codec75 s b) b2) ≠ NextState codec75 s b →
      predEven codec75 (NextState codec75 (NextState codec75 s b) b2)
        ≠ NextState codec75 s (1 - b))
    ∧ (predOdd codec75 (NextState codec75 (NextState codec75 s b) b2) ≠ NextState codec75 s b →
      predOdd codec75 (NextState codec75 (NextState codec75 s b) b2)
        ≠ NextState codec75 s (1 - b)) := by
  decide

/-! ### One step of the forward pass, with quantitative metric bounds -/

theorem pm75_true_pair (bits pm : List Nat) (s b a lo : Nat) (hs : s < 4) (hb : b < 2)
    (ha : pm.getD s 0 = a) (haI : a < INF)
    (hbm : a + BranchMetric codec75 bits s (NextState codec75 s b) < lo)
    (hsibE : predEven codec75 (NextState codec75 s b) ≠ s →
      lo ≤ pm.getD (predEven codec75 (NextState codec75 s b)) 0)
    (hsibO : predOdd codec75 (NextState codec75 s b) ≠ s →
      lo ≤ pm.getD (predOdd codec75 (NextState codec75 s b)) 0) :
    PathMetric codec75 bits pm (NextState codec75 s b)
      = (a + BranchMetric codec75 bits s (NextState codec75 s b), s) := by
  rcases d75_true_pred s hs b hb with ⟨hpe, hpo⟩ | ⟨hpo, hpe⟩
  · have hcE : candCode codec75 bits pm (predEven codec75 (NextState codec75 s b))
        (NextState codec75 s b)
        = a + BranchMetric codec75 bits s (NextState codec75 s b) := by
      rw [hpe, candCode_of_lt (show pm.getD s 0 < INF by rw [ha]; exact haI), ha]
    have hcO : a + BranchMetric codec75 bits s (NextState codec75 s b)
        < candCode codec75 bits pm (predOdd codec75 (NextState codec75 s b))
            (NextState codec75 s b) := by
      have h1 := hsibO hpo
      have h2 := candCode_ge codec75 bits pm (predOdd codec75 (NextState codec75 s b))
        (NextState codec75 s b)
      omega
    rw [pathMetric_pick_even codec75 bits pm (NextState codec75 s b) _ hcE hcO, hpe]
  · have hcO : candCode codec75 bits pm (predOdd codec75 (NextState codec75 s b))
        (NextState codec75 s b)
        = a + BranchMetric codec75 bits s (NextState codec75 s b) := by
      rw [hpo, candCode_of_lt (show pm.getD s 0 < INF by rw [ha]; exact haI), ha]
    have hcE : a + BranchMetric codec75 bits s (NextState codec75 s b)
        < candCode codec75 bits pm (predEven codec75 (NextState codec75 s b))
            (NextState codec75 s b) := by
      have h1 := hsibE hpe
      have h2 := candCode_ge codec75 bits pm (predEven codec75 (NextState codec75 s b))
        (NextState codec75 s b)
      omega
    rw [pathMetric_pick_odd codec75 bits pm (NextState codec75 s b) _ hcO hcE, hpo]

theorem pm75_cand_clean_lb (pm : List Nat) (s b a lo u p : Nat)
    (hs : s < 4) (hb : b < 2) (hu : u < 4) (hune : u ≠ NextState codec75 s b)
    (hp : predEven codec75 u = p ∨ predOdd codec75 u = p) (hp4 : p < 4)
    (ha : pm.getD s 0 = a) (haI : a < INF) (hloa : lo ≤ a + 2)
    (hothers : ∀ v, v < 4 → v ≠ s → lo ≤ pm.getD v 0) :
    lo ≤ candCode codec75 (outputAt codec75 (outputIndex codec75 s b)) pm p u := by
  by_cases hps : p = s
  · subst hps
    rw [candCode_of_lt (show pm.getD p 0 < INF by rw [ha]; exact haI), ha,
        d75_bm_wrong p hs b hb u hu hp hune]
    exact hloa
  · have h1 := hothers p hp4 hps
    have h2 := candCode_ge codec75 (outputAt codec75 (outputIndex codec75 s b)) pm p u
    omega

theorem pm75_cand_err_lb (pm : List Nat) (s b i u p : Nat)
    (hs : s < 4) (hb : b < 2) (hi : i < 2) (hu : u < 4) (hune : u ≠ NextState codec75 s b)
    (hp : predEven codec75 u = p ∨ predOdd codec75 u = p) (hp4 : p < 4)
    (ha : pm.getD s 0 = 0)
    (hothers : ∀ v, v < 4 → v ≠ s → 2 ≤ pm.getD v 0) :
    1 ≤ candCode codec75 (flipBit (outputAt codec75 (outputIndex codec75 s b)) i) pm p u := by
  by_cases hps : p = s
  · subst hps
    rw [candCode_of_lt (show pm.getD p 0 < INF by rw [ha]; decide), ha]
    have h1 := d75_bm_flip_wrong p hs b hb i hi u hu hp hune
    omega
  · have h1 := hothers p hp4 hps
    have h2 := candCode_ge codec75 (flipBit (outputAt codec75 (outputIndex codec75 s b)) i)
      pm p u
    omega

theorem pm75_clean_step (pm : List Nat) (s b a lo : Nat)
    (hlen : pm.length = 4) (hs : s < 4) (hb : b < 2)
    (ha : pm.getD s 0 = a) (haI : a < INF) (halo : a < lo) (hloa : lo ≤ a + 2)
    (hothers : ∀ u, u < 4 → u ≠ s → lo ≤ pm.getD u 0) :
    (UpdatePathMetrics codec75 (outputAt codec75 (outputIndex codec75 s b)) pm).1.length = 4
    ∧ (UpdatePathMetrics codec75 (outputAt codec75 (outputIndex codec75 s b)) pm).1.getD
        (NextState codec75 s b) 0 = a
    ∧ (∀ u, u < 4 → u ≠ NextState codec75 s b →
        lo ≤ (UpdatePathMetrics codec75 (outputAt codec75 (outputIndex codec75 s b))
          pm).1.getD u 0)
    ∧ (UpdatePathMetrics codec75 (outputAt codec75 (outputIndex codec75 s b)) pm).2.getD
        (NextState codec75 s b) 0 = s := by
  have hnl : NextState codec75 s b < 4 := d75_nextState_lt s hs b hb
  have hPM : PathMetric codec75 (outputAt codec75 (outputIndex codec75 s b)) pm
      (NextState codec75 s b) = (a, s) := by
    have h0 := pm75_true_pair (outputAt codec75 (outputIndex codec75 s b)) pm s b a lo hs hb
      ha haI (by rw [d75_bm_true s hs b hb]; omega)
      (fun hne => hothers _ (d75_preds_lt _ hnl).1 hne)
      (fun hne => hothers _ (d75_preds_lt _ hnl).2 hne)
    rw [d75_bm_true s hs b hb] at h0
    simpa using h0
  refine ⟨?_, ?_, ?_, ?_⟩
  · rw [updateMetrics_fst_len, hlen]
  · rw [updateMetrics_fst_getD (show NextState codec75 s b < pm.length by omega), hPM]
  · intro u hu hune
    rw [updateMetrics_fst_getD (show u < pm.length by omega)]
    apply pathMetric_fst_lb
    · exact pm75_cand_clean_lb pm s b a lo u _ hs hb hu hune (Or.inl rfl)
        (d75_preds_lt u hu).1 ha haI hloa hothers
    · exact pm75_cand_clean_lb pm s b a lo u _ hs hb hu hune (Or.inr rfl)
        (d75_preds_lt u hu).2 ha haI hloa hothers
  · rw [updateMetrics_snd_getD (show NextState codec75 s b < pm.length by omega), hPM]

theorem pm75_err_step (pm : List Nat) (s b i : Nat)
    (hlen : pm.length = 4) (hs : s < 4) (hb : b < 2) (hi : i < 2)
    (ha : pm.getD s 0 = 0)
    (hothers : ∀ u, u < 4 → u ≠ s → 2 ≤ pm.getD u 0) :
    (UpdatePathMetrics codec75 (flipBit (outputAt codec75 (outputIndex codec75 s b)) i)
        pm).1.length = 4
    ∧ (UpdatePathMetrics codec75 (flipBit (outputAt codec75 (outputIndex codec75 s b)) i)
        pm).1.getD (NextState codec75 s b) 0 = 1
    ∧ (∀ u, u < 4 → u ≠ NextState codec75 s b →
        1 ≤ (UpdatePathMetrics codec75
          (flipBit (outputAt codec75 (outputIndex codec75 s b)) i) pm).1.getD u 0)
    ∧ (∀ u, u < 4 → u ≠ NextState codec75 s b → u ≠ NextState codec75 s (1 - b) →
        2 ≤ (UpdatePathMetrics codec75
          (flipBit (outputAt codec75 (outputIndex codec75 s b)) i) pm).1.getD u 0)
    ∧ (UpdatePathMetrics codec75 (flipBit (outputAt codec75 (outputIndex codec75 s b)) i)
        pm).2.getD (NextState codec75 s b) 0 = s := by
  have hnl : NextState codec75 s b < 4 := d75_nextState_lt s hs b hb
  have hPM : PathMetric codec75 (flipBit (outputAt codec75 (outputIndex codec75 s b)) i) pm
      (NextState codec75 s b) = (1, s) := by
    have h0 := pm75_true_pair (flipBit (outputAt codec75 (outputIndex codec75 s b)) i)
      pm s b 0 2 hs hb ha (by decide)
      (by rw [d75_bm_flip_true s hs b hb i hi]; omega)
      (fun hne => hothers _ (d75_preds_lt _ hnl).1 hne)
      (fun hne => hothers _ (d75_preds_lt _ hnl).2 hne)
    rw [d75_bm_flip_true s hs b hb i hi] at h0
    simpa using h0
  refine ⟨?_, ?_, ?_, ?_, ?_⟩
  · rw [updateMetrics_fst_len, hlen]
  · rw [updateMetrics_fst_getD (show NextState codec75 s b < pm.length by omega), hPM]
  · intro u hu hune
    rw [updateMetrics_fst_getD (show u < pm.length by omega)]
    apply pathMetric_fst_lb
    · exact pm75_cand_err_lb pm s b i u _ hs hb hi hu hune (Or.inl rfl)
        (d75_preds_lt u hu).1 ha hothers
    · exact pm75_cand_err_lb pm s b i u _ hs hb hi hu hune (Or.inr rfl)
        (d75_preds_lt u hu).2 ha hothers
  · intro u hu h1 h2
    rw [updateMetrics_fst_getD (show u < pm.length by omega)]
    have hkeep : ∀ p, (predEven codec75 u = p ∨ predOdd codec75 u = p) → p < 4 →
        2 ≤ candCode codec75 (flipBit (outputAt codec75 (outputIndex codec75 s b)) i)
          pm p u := by
      intro p hp hp4
      have hpns : p ≠ s := by
        intro hcontra
        subst hcontra
        rcases d75_pred_child p hs b hb u hu hp with hcase | hcase
        · exact h1 hcase
        · exact h2 hcase
      have hge := candCode_ge codec75
        (flipBit (outputAt codec75 (outputIndex codec75 s b)) i) pm p u
      have hlo := hothers p hp4 hpns
      omega
    apply pathMetric_fst_lb
    · exact hkeep _ (Or.inl rfl) (d75_preds_lt u hu).1
    · exact hkeep _ (Or.inr rfl) (d75_preds_lt u hu).2
  · rw [updateMetrics_snd_getD (show NextState codec75 s b < pm.length by omega), hPM]

theorem pm75_recover_step (pm : List Nat) (s b b2 : Nat)
    (hlen : pm.length = 4) (hs : s < 4) (hb : b < 2) (hb2 : b2 < 2)
    (ha : pm.getD (NextState codec75 s b) 0 = 1)
    (hstar : 1 ≤ pm.getD (NextState codec75 s (1 - b)) 0)
    (hothers : ∀ u, u < 4 → u ≠ NextState codec75 s b → u ≠ NextState codec75 s (1 - b) →
        2 ≤ pm.getD u 0) :
    (UpdatePathMetrics codec75
        (outputAt codec75 (outputIndex codec75 (NextState codec75 s b) b2)) pm).1.length = 4
    ∧ (UpdatePathMetrics codec75
        (outputAt codec75 (outputIndex codec75 (NextState codec75 s b) b2)) pm).1.getD
        (NextState codec75 (NextState codec75 s b) b2) 0 = 1
    ∧ (∀ u, u < 4 → u ≠ NextState codec75 (NextState codec75 s b) b2 →
        2 ≤ (UpdatePathMetrics codec75
          (outputAt codec75 (outputIndex codec75 (NextState codec75 s b) b2)) pm).1.getD u 0)
    ∧ (UpdatePathMetrics codec75
        (outputAt codec75 (outputIndex codec75 (NextState codec75 s b) b2)) pm).2.getD
        (NextState codec75 (NextState codec75 s b) b2) 0 = NextState codec75 s b := by
  have hs1 : NextState codec75 s b < 4 := d75_nextState_lt s hs b hb
  have hts : NextState codec75 s (1 - b) < 4 := d75_nextState_lt s hs (1 - b) (by omega)
  have hs2 : NextState codec75 (NextState codec75 s b) b2 < 4 :=
    d75_nextState_lt _ hs1 b2 hb2
  have hPM : PathMetric codec75
      (outputAt codec75 (outputIndex codec75 (NextState codec75 s b) b2)) pm
      (NextState codec75 (NextState codec75 s b) b2) = (1, NextState codec75 s b) := by
    have h0 := pm75_true_pair
      (outputAt codec75 (outputIndex codec75 (NextState codec75 s b) b2)) pm
      (NextState codec75 s b) b2 1 2 hs1 hb2 ha (by decide)
      (by rw [d75_bm_true _ hs1 b2 hb2]; omega)
      (fun hne => hothers _ (d75_preds_lt _ hs2).1 hne ((d75_sib_recover s hs b hb b2 hb2).1 hne))
      (fun hne => hothers _ (d75_preds_lt _ hs2).2 hne ((d75_sib_recover s hs b hb b2 hb2).2 hne))
    rw [d75_bm_true _ hs1 b2 hb2] at h0
    simpa using h0
  refine ⟨?_, ?_, ?_, ?_⟩
  · rw [updateMetrics_fst_len, hlen]
  · rw [updateMetrics_fst_getD
      (show NextState codec75 (NextState codec75 s b) b2 < pm.length by omega), hPM]
  · intro u hu hune
    rw [updateMetrics_fst_getD (show u < pm.length by omega)]
    have hkeep : ∀ p, (predEven codec75 u = p ∨ predOdd codec75 u = p) → p < 4 →
        2 ≤ candCode codec75
          (outputAt codec75 (outputIndex codec75 (NextState codec75 s b) b2)) pm p u := by
      intro p hp hp4
      by_cases hps1 : p = NextState codec75 s b
      · subst hps1
        rw [candCode_of_lt (show pm.getD (NextState codec75 s b) 0 < INF by rw [ha]; decide),
            ha, d75_bm_wrong (NextState codec75 s b) hs1 b2 hb2 u hu hp hune]
        omega
      · by_cases hpts : p = NextState codec75 s (1 - b)
        · subst hpts
          have hbm := d75_bm_tstar s hs b hb b2 hb2 u hu
          have hcb := candCode_lb hstar hbm (show 1 + 1 ≤ INF by decide)
          omega
        · have hge := candCode_ge codec75
            (outputAt codec75 (outputIndex codec75 (NextState codec75 s b) b2)) pm p u
          have hlo := hothers p hp4 hps1 hpts
          omega
    apply pathMetric_fst_lb
    · exact hkeep _ (Or.inl rfl) (d75_preds_lt u hu).1
    · exact hkeep _ (Or.inr rfl) (d75_preds_lt u hu).2
  · rw [updateMetrics_snd_getD
      (show NextState codec75 (NextState codec75 s b) b2 < pm.length by omega), hPM]

/-! ### The forward pass over any error-free stretch of groups -/

theorem pm75_run_clean (a lo : Nat) (haI : a < INF) (halo : a < lo) (hloa : lo ≤ a + 2) :
    ∀ (m : List Nat) (s : Nat) (pm : List Nat),
      (∀ x ∈ m, x < 2) → s < 4 → pm.length = 4 → pm.getD s 0 = a →
      (∀ u, u < 4 → u ≠ s → lo ≤ pm.getD u 0) →
      (decodeSteps codec75 (encGroups codec75 s m) pm).1.length = 4
      ∧ (decodeSteps codec75 (encGroups codec75 s m) pm).1.getD (encFinal codec75 s m) 0 = a
      ∧ (∀ u, u < 4 → u ≠ encFinal codec75 s m →
          lo ≤ (decodeSteps codec75 (encGroups codec75 s m) pm).1.getD u 0)
      ∧ tracebackRev codec75 (decodeSteps codec75 (encGroups codec75 s m) pm).2.reverse
          (encFinal codec75 s m) = m.reverse
      ∧ tbEnd (decodeSteps codec75 (encGroups codec75 s m) pm).2.reverse
          (encFinal codec75 s m) = s
  | [], s, pm, _, _, hlen, ha, hothers => by
    simp only [encGroups, decodeSteps, encFinal, List.reverse_nil, tracebackRev, tbEnd_nil]
    exact ⟨hlen, ha, hothers, trivial, trivial⟩
  | x :: bs, s, pm, hm, hs, hlen, ha, hothers => by
    have hx : x < 2 := hm x (List.mem_cons_self x bs)
    obtain ⟨hlen1, htrue1, hoth1, hcol1⟩ :=
      pm75_clean_step pm s x a lo hlen hs hx ha haI halo hloa hothers
    obtain ⟨IH1, IH2, IH3, IH4, IH5⟩ := pm75_run_clean a lo haI halo hloa bs
      (NextState codec75 s x)
      (UpdatePathMetrics codec75 (outputAt codec75 (outputIndex codec75 s x)) pm).1
      (fun y hy => hm y (List.mem_cons_of_mem x hy)) (d75_nextState_lt s hs x hx)
      hlen1 htrue1 hoth1
    simp only [encGroups, decodeSteps, encFinal, List.reverse_cons]
    refine ⟨IH1, IH2, IH3, ?_, ?_⟩
    · rw [tracebackRev_append, IH4, IH5]
      simp only [tracebackRev]
      rw [d75_nextState_shift s hs x hx]
    · rw [tbEnd_append, IH5, tbEnd_cons, tbEnd_nil]
      exact hcol1

/-! ### Decoding a stream with one flipped bit outside the final parity group -/

theorem pm75_decode_split (mPre : List Nat) (bg b2 : Nat) (rest : List Nat) (i : Nat)
    (hmPre : ∀ x ∈ mPre, x < 2) (hbg : bg < 2) (hb2 : b2 < 2) (hrest : ∀ x ∈ rest, x < 2)
    (hi : i < 2) :
    Decode codec75 (flipBit (encodeT codec75 0 (mPre ++ bg :: b2 :: rest))
        (2 * mPre.length + i))
      = mPre ++ bg :: b2 :: rest := by
  have hK75 : codec75.constraint = 1 + 2 := rfl
  have hne75 : codec75.polynomials ≠ [] := by decide
  have h04 : (0 : Nat) < 2 ^ (1 + 1) := by decide
  have hsg4 : encFinal codec75 0 mPre < 4 := encFinal_lt hK75 mPre 0 h04 hmPre
  have hs14 : NextState codec75 (encFinal codec75 0 mPre) bg < 4 :=
    d75_nextState_lt _ hsg4 bg hbg
  have hs24 : NextState codec75 (NextState codec75 (encFinal codec75 0 mPre) bg) b2 < 4 :=
    d75_nextState_lt _ hs14 b2 hb2
  have hElen : (encodeT codec75 0 mPre).length = 2 * mPre.length := by
    rw [encodeT_length hK75 mPre 0 h04 hmPre]
    have hnp : numParityBits codec75 = 2 := rfl
    rw [hnp]
    ring
  have hGlen :
      (outputAt codec75 (outputIndex codec75 (encFinal codec75 0 mPre) bg)).length = 2 :=
    d75_out_len _ hsg4 bg hbg
  have henc : encodeT codec75 0 (mPre ++ bg :: b2 :: rest)
      = encodeT codec75 0 mPre
        ++ (outputAt codec75 (outputIndex codec75 (encFinal codec75 0 mPre) bg)
            ++ (outputAt codec75 (outputIndex codec75
                  (NextState codec75 (encFinal codec75 0 mPre) bg) b2)
                ++ encodeT codec75
                    (NextState codec75 (NextState codec75 (encFinal codec75 0 mPre) bg) b2)
                    rest)) := by
    rw [encodeT_append]
    simp only [encodeT]
  have hflip : flipBit (encodeT codec75 0 (mPre ++ bg :: b2 :: rest)) (2 * mPre.length + i)
      = encodeT codec75 0 mPre
        ++ (flipBit (outputAt codec75 (outputIndex codec75 (encFinal codec75 0 mPre) bg)) i
            ++ (outputAt codec75 (outputIndex codec75
                  (NextState codec75 (encFinal codec75 0 mPre) bg) b2)
                ++ encodeT codec75
                    (NextState codec75 (NextState codec75 (encFinal codec75 0 mPre) bg) b2)
                    rest)) := by
    rw [henc, flipBit_append_right _ _ _ (by rw [hElen]; omega), hElen]
    have hidx : 2 * mPre.length + i - 2 * mPre.length = i := by omega
    rw [hidx, flipBit_append_left _ _ _ (by rw [hGlen]; omega)]
  have hgroups : chunkPad (numParityBits codec75)
      (flipBit (encodeT codec75 0 (mPre ++ bg :: b2 :: rest)) (2 * mPre.length + i))
      = encGroups codec75 0 mPre
        ++ (flipBit (outputAt codec75 (outputIndex codec75 (encFinal codec75 0 mPre) bg)) i
            :: (outputAt codec75 (outputIndex codec75
                  (NextState codec75 (encFinal codec75 0 mPre) bg) b2)
                :: encGroups codec75
                    (NextState codec75 (NextState codec75 (encFinal codec75 0 mPre) bg) b2)
                    rest)) := by
    rw [hflip, chunkPad_encodeT_append hK75 hne75 mPre 0 _ h04 hmPre]
    congr 1
    have hn : numParityBits codec75 = 1 + 1 := rfl
    rw [hn, chunkPad_cons (show (flipBit (outputAt codec75
        (outputIndex codec75 (encFinal codec75 0 mPre) bg)) i).length = 1 + 1
      by rw [flipBit_length, hGlen])]
    congr 1
    rw [chunkPad_cons (show (outputAt codec75 (outputIndex codec75
        (NextState codec75 (encFinal codec75 0 mPre) bg) b2)).length = 1 + 1
      from d75_out_len _ hs14 b2 hb2)]
    congr 1
    rw [← hn]
    exact chunkPad_encodeT hK75 hne75 rest _
      (show NextState codec75 (NextState codec75 (encFinal codec75 0 mPre) bg) b2 < 2 ^ (1 + 1)
        from hs24) hrest
  obtain ⟨A1, A2, A3, A4, A5⟩ := pm75_run_clean 0 2 (by decide) (by decide) (by decide)
    mPre 0 (initMetrics codec75) hmPre (by decide) (by decide) (by decide) (by decide)
  obtain ⟨E1, E2, E3, E4, E5⟩ := pm75_err_step
    (decodeSteps codec75 (encGroups codec75 0 mPre) (initMetrics codec75)).1
    (encFinal codec75 0 mPre) bg i A1 hsg4 hbg hi A2 A3
  obtain ⟨R1, R2, R3, R4⟩ := pm75_recover_step
    (UpdatePathMetrics codec75
      (flipBit (outputAt codec75 (outputIndex codec75 (encFinal codec75 0 mPre) bg)) i)
      (decodeSteps codec75 (encGroups codec75 0 mPre) (initMetrics codec75)).1).1
    (encFinal codec75 0 mPre) bg b2 E1 hsg4 hbg hb2 E2
    (E3 _ (d75_nextState_lt _ hsg4 (1 - bg) (by omega))
      (Ne.symm (d75_next_ne _ hsg4 bg hbg)))
    E4
  obtain ⟨C1, C2, C3, C4, C5⟩ := pm75_run_clean 1 2 (by decide) (by decide) (by decide)
    rest (NextState codec75 (NextState codec75 (encFinal codec75 0 mPre) bg) b2)
    (UpdatePathMetrics codec75
      (outputAt codec75 (outputIndex codec75
        (NextState codec75 (encFinal codec75 0 mPre) bg) b2))
      (UpdatePathMetrics codec75
        (flipBit (outputAt codec75 (outputIndex codec75 (encFinal codec75 0 mPre) bg)) i)
        (decodeSteps codec75 (encGroups codec75 0 mPre) (initMetrics codec75)).1).1).1
    hrest hs24 R1 R2 R3
  have hsF4 : encFinal codec75
      (NextState codec75 (NextState codec75 (encFinal codec75 0 mPre) bg) b2) rest < 4 :=
    encFinal_lt hK75 rest _
      (show NextState codec75 (NextState codec75 (encFinal codec75 0 mPre) bg) b2 < 2 ^ (1 + 1)
        from hs24) hrest
  have hminIdx : minIndex (decodeSteps codec75
      (encGroups codec75
        (NextState codec75 (NextState codec75 (encFinal codec75 0 mPre) bg) b2) rest)
      (UpdatePathMetrics codec75
        (outputAt codec75 (outputIndex codec75
          (NextState codec75 (encFinal codec75 0 mPre) bg) b2))
        (UpdatePathMetrics codec75
          (flipBit (outputAt codec75 (outputIndex codec75 (encFinal codec75 0 mPre) bg)) i)
          (decodeSteps codec75 (encGroups codec75 0 mPre) (initMetrics codec75)).1).1).1).1
      = encFinal codec75
          (NextState codec75 (NextState codec75 (encFinal codec75 0 mPre) bg) b2) rest := by
    apply minIndex_eq_strict
    · rw [C1]
      exact hsF4
    · intro u hu hne
      rw [C1] at hu
      rw [C2]
      have h3 := C3 u hu hne
      omega
  have hrevshape : ∀ (A C : List (List Nat)) (e r : List Nat),
      (A ++ e :: r :: C).reverse = C.reverse ++ ([r] ++ ([e] ++ A.reverse)) := by
    intro A C e r
    simp [List.reverse_append]
  simp only [Decode]
  rw [hgroups, decodeSteps_append codec75 (encGroups codec75 0 mPre) _ (initMetrics codec75)]
  simp only [decodeSteps]
  rw [hminIdx, hrevshape, tracebackRev_append, C4, C5, tracebackRev_append,
      tbEnd_cons, tbEnd_nil, R4, tracebackRev_append, tbEnd_cons, tbEnd_nil, E5, A4]
  simp only [tracebackRev]
  rw [d75_nextState_shift _ hs14 b2 hb2, d75_nextState_shift _ hsg4 bg hbg]
  simp [List.reverse_append]

/-! ### The claims -/

/-- C1, as stated, is false: the valid configuration `K = 2`,
polynomials `{2}` (whose single polynomial is even, so no output ever depends
on the newest input bit) encodes `[1]` as `[0]`, and decoding returns `[0]`,
not `[1]`. -/
theorem claim_C1_counterexample :
    validCodec ⟨2, [2]⟩
    ∧ Encode ⟨2, [2]⟩ [1] = some [0]
    ∧ (Decode ⟨2, [2]⟩ [0]).take 1 ≠ [1] := by
  decide

/-- C1 (amended): for every valid codec configuration with at least one odd
polynomial (lowest bit set, so every output group depends on the current
input bit) and every bit sequence `m` of length `L`, `Decode(Encode(m))`
truncated to length `L` equals `m` when no channel errors are injected. -/
theorem claim_C1_amended (c : ViterbiCodec) (m : List Nat) (hv : validCodec c)
    (hodd : ∃ p ∈ c.polynomials, p % 2 = 1) (hm : ∀ b ∈ m, b < 2) :
    Encode c m = some (encodeT c 0 m)
    ∧ (Decode c (encodeT c 0 m)).take m.length = m := by
  constructor
  · obtain ⟨hK2, hne, hpoly⟩ := hv
    obtain ⟨K, hK⟩ : ∃ K, c.constraint = K + 2 := ⟨c.constraint - 2, by omega⟩
    exact encodeFrom_eq_encodeT hK m 0 (Nat.two_pow_pos _) hm
  · rw [decode_encodeT hv hodd m hm]
    exact List.take_length m

/-- Witness for the amended C1 at the constraint-3 `{7, 5}` codec and
message `[1, 0, 1]`. -/
theorem claim_C1_amended_witness :
    (validCodec codec75 ∧ (∃ p ∈ codec75.polynomials, p % 2 = 1)
      ∧ (∀ b ∈ ([1, 0, 1] : List Nat), b < 2))
    ∧ (Encode codec75 [1, 0, 1] = some (encodeT codec75 0 [1, 0, 1])
      ∧ (Decode codec75 (encodeT codec75 0 [1, 0, 1])).take ([1, 0, 1] : List Nat).length
          = [1, 0, 1]) :=
  ⟨⟨by decide, by decide, by decide⟩,
    claim_C1_amended codec75 [1, 0, 1] (by decide) (by decide) (by decide)⟩

/-- C2, as stated, is false: for the codec `(3, {7, 5})` and the message
`[1]`, `Encode` yields `[1, 1]`, and flipping the bit at position 0 makes the
decoder return `[0]`, not `[1]` (the error falls in the final parity group,
where no later branch can disambiguate). -/
theorem claim_C2_counterexample :
    Encode codec75 [1] = some [1, 1]
    ∧ Decode codec75 (flipBit [1, 1] 0) ≠ [1] := by
  decide

/-- C2 (amended): for the codec `(3, {7, 5})`, for every message `m` of bits
and every position outside the final parity group of `Encode(m)` (the last
`num_parity_bits` positions of the `2 * L` encoded bits), flipping the single
bit at that position still yields `Decode(corrupted) = m`; a flip inside the
final parity group can corrupt the decoded last bit. -/
theorem claim_C2_amended (m : List Nat) (pos : Nat)
    (hm : ∀ x ∈ m, x < 2) (hpos : pos + 2 < 2 * m.length) :
    Decode codec75 (flipBit (encodeT codec75 0 m) pos) = m := by
  have hg2 : pos / 2 + 1 < m.length := by omega
  obtain ⟨bg, tl, hdg⟩ : ∃ bg tl, m.drop (pos / 2) = bg :: tl := by
    cases hdrop : m.drop (pos / 2) with
    | nil =>
      have hlen := List.length_drop (pos / 2) m
      rw [hdrop] at hlen
      simp at hlen
      omega
    | cons y ys => exact ⟨y, ys, rfl⟩
  obtain ⟨b2, rest, hb2r⟩ : ∃ b2 rest, tl = b2 :: rest := by
    cases htl2 : tl with
    | nil =>
      have hlen := List.length_drop (pos / 2) m
      rw [hdg, htl2] at hlen
      simp at hlen
      omega
    | cons y ys => exact ⟨y, ys, rfl⟩
  have hsplit : m = m.take (pos / 2) ++ (bg :: b2 :: rest) := by
    rw [← hb2r, ← hdg, List.take_append_drop]
  have hPreLen : (m.take (pos / 2)).length = pos / 2 := by
    rw [List.length_take]
    omega
  have hmPre : ∀ x ∈ m.take (pos / 2), x < 2 := fun x hx => hm x (List.take_subset _ m hx)
  have hbg : bg < 2 := hm bg (by rw [hsplit]; simp)
  have hb2 : b2 < 2 := hm b2 (by rw [hsplit]; simp)
  have hrest : ∀ x ∈ rest, x < 2 := fun x hx => hm x (by rw [hsplit]; simp [hx])
  have hposeq : pos = 2 * (m.take (pos / 2)).length + pos % 2 := by
    rw [hPreLen]
    omega
  calc Decode codec75 (flipBit (encodeT codec75 0 m) pos)
      = Decode codec75 (flipBit (encodeT codec75 0 (m.take (pos / 2) ++ (bg :: b2 :: rest)))
          (2 * (m.take (pos / 2)).length + pos % 2)) := by rw [← hsplit, ← hposeq]
    _ = m.take (pos / 2) ++ (bg :: b2 :: rest) :=
        pm75_decode_split (m.take (pos / 2)) bg b2 rest (pos % 2) hmPre hbg hb2 hrest
          (Nat.mod_lt pos (by omega))
    _ = m := hsplit.symm

/-- Witness for the amended C2: the 4-bit message `[1, 0, 1, 1]` with the
encoded bit at position 3 flipped still decodes exactly. -/
theorem claim_C2_amended_witness :
    ((∀ x ∈ ([1, 0, 1, 1] : List Nat), x < 2)
      ∧ 3 + 2 < 2 * ([1, 0, 1, 1] : List Nat).length)
    ∧ Decode codec75 (flipBit (encodeT codec75 0 [1, 0, 1, 1]) 3) = [1, 0, 1, 1] :=
  ⟨⟨by decide, by decide⟩, claim_C2_amended [1, 0, 1, 1] 3 (by decide) (by decide)⟩

set_option maxRecDepth 8192 in
/-- C3: for the codec `(3, {7, 5})`, decoding the 30-bit string recovers the
15-bit message, and decoding the same string with the bit in its 21st
position (index 20) flipped recovers the same message. -/
theorem claim_C3 :
    Decode codec75
        [0,0,1,1,1,0,0,0,0,1,1,0,0,1,1,1,1,1,1,0,0,0,1,0,1,1,0,0,1,1]
      = [0,1,0,1,1,1,0,0,1,0,1,0,0,0,1]
    ∧ Decode codec75
        (flipBit [0,0,1,1,1,0,0,0,0,1,1,0,0,1,1,1,1,1,1,0,0,0,1,0,1,1,0,0,1,1] 20)
      = [0,1,0,1,1,1,0,0,1,0,1,0,0,0,1] := by
  decide

/-- C4 exposes a code bug: the zero-padding of a short final group that the
claim describes is the documented intent (the source comment at
viterbi.cpp:151-152 says to fill the missing bits with trailing zeros), but
the code never performs it — the group constructor at viterbi.cpp:150 reads
past the end of the received buffer (undefined behavior) and always yields a
full-size group, so the zero-fill `resize` branch at viterbi.cpp:153-156 is
dead code. This theorem states the claim's intended semantics over the
spec-modelled grouping `chunkPad`: decoding a stream whose length is not a
multiple of `num_parity_bits` equals decoding the stream right-padded with
zeros to a full final group. -/
theorem claim_C4 (c : ViterbiCodec) (bits : List Nat) (hne : c.polynomials ≠ [])
    (hmod : bits.length % numParityBits c ≠ 0) :
    Decode c bits
      = Decode c (bits
          ++ List.replicate (numParityBits c - bits.length % numParityBits c) 0) := by
  obtain ⟨n, hn⟩ : ∃ n, numParityBits c = n + 1 :=
    ⟨numParityBits c - 1, by have := numParityBits_pos hne; omega⟩
  rw [hn] at hmod
  simp only [Decode, hn]
  rw [chunkPad_pad n bits hmod]

/-- Witness for C4: decoding three received bits with the `(3, {7, 5})` codec
equals decoding the same bits padded with one zero. -/
theorem claim_C4_witness :
    (codec75.polynomials ≠ [] ∧ ([0, 0, 1] : List Nat).length % numParityBits codec75 ≠ 0)
    ∧ Decode codec75 [0, 0, 1]
        = Decode codec75 ([0, 0, 1]
            ++ List.replicate
                (numParityBits codec75 - ([0, 0, 1] : List Nat).length % numParityBits codec75)
                0) :=
  ⟨⟨by decide, by decide⟩, claim_C4 codec75 [0, 0, 1] (by decide) (by decide)⟩

/-- C5: at every decode step and for every target state, provided the previous
metrics are `int` values (at most `INT_MAX`), the new metric is the smaller of
the two spec candidates (previous metric plus branch metric, sentinel stays
sentinel), ties select the even-low-bit predecessor `s0`, and the winning
metric and predecessor are what `UpdatePathMetrics` stores for that state. -/
theorem claim_C5 (c : ViterbiCodec) (bits prev : List Nat) (t : Nat)
    (h1 : prev.getD (predEven c t) 0 ≤ INF) (h2 : prev.getD (predOdd c t) 0 ≤ INF)
    (ht : t < prev.length) :
    (PathMetric c bits prev t).1
      = min (candidateSpec c bits prev (predEven c t) t)
          (candidateSpec c bits prev (predOdd c t) t)
    ∧ (PathMetric c bits prev t).2
      = (if candidateSpec c bits prev (predEven c t) t
            ≤ candidateSpec c bits prev (predOdd c t) t
         then predEven c t else predOdd c t)
    ∧ (candidateSpec c bits prev (predEven c t) t
          = candidateSpec c bits prev (predOdd c t) t
        → (PathMetric c bits prev t).2 = predEven c t)
    ∧ (UpdatePathMetrics c bits prev).1.getD t 0 = (PathMetric c bits prev t).1
    ∧ (UpdatePathMetrics c bits prev).2.getD t 0 = (PathMetric c bits prev t).2 := by
  refine ⟨?_, ?_, ?_, updateMetrics_fst_getD ht, updateMetrics_snd_getD ht⟩
  · rw [pathMetric_eq, candidateSpec_eq_candCode h1, candidateSpec_eq_candCode h2]
    split
    · rename_i hle
      rw [Nat.min_def, if_pos hle]
    · rename_i hle
      rw [Nat.min_def, if_neg hle]
  · rw [pathMetric_eq, candidateSpec_eq_candCode h1, candidateSpec_eq_candCode h2]
    split
    · rename_i hle
      rfl
    · rename_i hle
      rfl
  · intro heq
    rw [candidateSpec_eq_candCode h1, candidateSpec_eq_candCode h2] at heq
    rw [pathMetric_eq, if_pos (Nat.le_of_eq heq)]

/-- Witness for C5 at a concrete metric vector of the `(3, {7, 5})` codec. -/
theorem claim_C5_witness :
    (([0, INF, 2, INF] : List Nat).getD (predEven codec75 1) 0 ≤ INF
      ∧ ([0, INF, 2, INF] : List Nat).getD (predOdd codec75 1) 0 ≤ INF
      ∧ 1 < ([0, INF, 2, INF] : List Nat).length)
    ∧ ((PathMetric codec75 [1, 0] [0, INF, 2, INF] 1).1
        = min (candidateSpec codec75 [1, 0] [0, INF, 2, INF] (predEven codec75 1) 1)
            (candidateSpec codec75 [1, 0] [0, INF, 2, INF] (predOdd codec75 1) 1)
      ∧ (PathMetric codec75 [1, 0] [0, INF, 2, INF] 1).2
        = (if candidateSpec codec75 [1, 0] [0, INF, 2, INF] (predEven codec75 1) 1
              ≤ candidateSpec codec75 [1, 0] [0, INF, 2, INF] (predOdd codec75 1) 1
           then predEven codec75 1 else predOdd codec75 1)
      ∧ (candidateSpec codec75 [1, 0] [0, INF, 2, INF] (predEven codec75 1) 1
            = candidateSpec codec75 [1, 0] [0, INF, 2, INF] (predOdd codec75 1) 1
          → (PathMetric codec75 [1, 0] [0, INF, 2, INF] 1).2 = predEven codec75 1)
      ∧ (UpdatePathMetrics codec75 [1, 0] [0, INF, 2, INF]).1.getD 1 0
          = (PathMetric codec75 [1, 0] [0, INF, 2, INF] 1).1
      ∧ (UpdatePathMetrics codec75 [1, 0] [0, INF, 2, INF]).2.getD 1 0
          = (PathMetric codec75 [1, 0] [0, INF, 2, INF] 1).2) :=
  ⟨⟨by decide, by decide, by decide⟩,
    claim_C5 codec75 [1, 0] [0, INF, 2, INF] 1 (by decide) (by decide) (by decide)⟩

/-- C6, as stated, is false: decoding the received stream `001010` with the
`(3, {7, 5})` codec, state 1 has the finite (non-sentinel) metric 2 after the
second step but metric 1 after the third step — a strict decrease for a state
already reached. -/
theorem claim_C6_counterexample :
    (UpdatePathMetrics codec75 [1, 0]
        (UpdatePathMetrics codec75 [0, 0] (initMetrics codec75)).1).1.getD 1 0 = 2
    ∧ (UpdatePathMetrics codec75 [1, 0]
        (UpdatePathMetrics codec75 [1, 0]
          (UpdatePathMetrics codec75 [0, 0] (initMetrics codec75)).1).1).1.getD 1 0 = 1
    ∧ (UpdatePathMetrics codec75 [1, 0]
        (UpdatePathMetrics codec75 [0, 0] (initMetrics codec75)).1).1.getD 1 0 ≠ INF := by
  decide

/-- C6 (amended): a state's new path metric never drops below the smaller of
its two predecessors' previous metrics (so the global minimum metric is
non-decreasing across steps), but it can be smaller than the state's own
previous metric, so per-state monotonicity does not hold. -/
theorem claim_C6_amended (c : ViterbiCodec) (bits pm : List Nat) (t : Nat) :
    min (pm.getD (predEven c t) 0) (pm.getD (predOdd c t) 0)
      ≤ (PathMetric c bits pm t).1 := by
  rw [pathMetric_eq]
  split
  · exact le_trans (Nat.min_le_left _ _) (candCode_ge c bits pm (predEven c t) t)
  · exact le_trans (Nat.min_le_right _ _) (candCode_ge c bits pm (predOdd c t) t)

/-- C7: for every table index `i` in range, the stored entry is the list, one
bit per polynomial in order, of the XOR-parity of `i AND` the K-bit reversal
of the polynomial; and `Output(state, input)` is exactly the bounds-checked
table lookup at `state | (input << (K - 1))`. -/
theorem claim_C7 (c : ViterbiCodec) (i : Nat) (hi : i < 2 ^ c.constraint) :
    (outputs c).get? i
      = some (c.polynomials.map fun p => natParity (i &&& ReverseBits c.constraint p))
    ∧ ∀ st inp, Output c st inp = (outputs c).get? (st ||| (inp <<< (c.constraint - 1))) := by
  constructor
  · rw [outputs_get? hi, outputsEntry]
    congr 1
    apply List.map_congr_left
    intro p _
    rw [convOutputAux_eq_parity c.constraint i (ReverseBits c.constraint p) 0 hi
          (reverseBits_lt c.constraint p), Nat.zero_xor]
  · intro st inp
    rfl

/-- Witness for C7 at table index 3 of the `(3, {7, 5})` codec. -/
theorem claim_C7_witness :
    (3 < 2 ^ codec75.constraint)
    ∧ (outputs codec75).get? 3
        = some (codec75.polynomials.map
            fun p => natParity (3 &&& ReverseBits codec75.constraint p)) :=
  ⟨by decide, (claim_C7 codec75 3 (by decide)).1⟩

/-- C8: output length laws and the empty boundary cases: `Encode` multiplies
the length by the parity-bit count, `Decode` produces one bit per (ceiling)
group, and both map the empty sequence to the empty sequence. -/
theorem claim_C8 (c : ViterbiCodec) (m bits : List Nat) (hK2 : 2 ≤ c.constraint)
    (hne : c.polynomials ≠ []) (hm : ∀ b ∈ m, b < 2) :
    (∃ e, Encode c m = some e ∧ e.length = m.length * numParityBits c)
    ∧ (Decode c bits).length = (bits.length + numParityBits c - 1) / numParityBits c
    ∧ Encode c [] = some []
    ∧ Decode c [] = [] := by
  obtain ⟨K, hK⟩ : ∃ K, c.constraint = K + 2 := ⟨c.constraint - 2, by omega⟩
  refine ⟨⟨encodeT c 0 m, ?_, ?_⟩, decode_length hne bits, rfl, decode_nil c⟩
  · exact encodeFrom_eq_encodeT hK m 0 (Nat.two_pow_pos _) hm
  · exact encodeT_length hK m 0 (Nat.two_pow_pos _) hm

/-- Witness for C8 at the `(3, {7, 5})` codec. -/
theorem claim_C8_witness :
    (2 ≤ codec75.constraint ∧ codec75.polynomials ≠ []
      ∧ (∀ b ∈ ([1, 0] : List Nat), b < 2))
    ∧ ((∃ e, Encode codec75 [1, 0] = some e
          ∧ e.length = ([1, 0] : List Nat).length * numParityBits codec75)
      ∧ (Decode codec75 [0, 1, 1]).length
          = (([0, 1, 1] : List Nat).length + numParityBits codec75 - 1)
              / numParityBits codec75
      ∧ Encode codec75 [] = some []
      ∧ Decode codec75 [] = []) :=
  ⟨⟨by decide, by decide, by decide⟩,
    claim_C8 codec75 [1, 0] [0, 1, 1] (by decide) (by decide) (by decide)⟩

/-- C9: the constructor asserts fail exactly when the polynomial list is
empty, some polynomial is non-positive, or some polynomial needs more than
`constraint` bits; when they pass, the codec's output table is fully built
(`2^K` rows of one bit per polynomial). -/
theorem claim_C9 (constraint : Nat) (ps : List Int) :
    (constructorAsserts constraint ps = false
      ↔ ps = [] ∨ (∃ p ∈ ps, p ≤ 0) ∨ (∃ p ∈ ps, (2 : Int) ^ constraint ≤ p))
    ∧ (constructorAsserts constraint ps = true
      → (outputs (mkCodec constraint ps)).length = 2 ^ constraint
        ∧ ∀ e ∈ outputs (mkCodec constraint ps), e.length = ps.length) := by
  have htrue : constructorAsserts constraint ps = true
      ↔ (ps ≠ [] ∧ ∀ p ∈ ps, 0 < p ∧ p < (2 : Int) ^ constraint) := by
    simp [constructorAsserts, List.isEmpty_iff]
  constructor
  · rw [Bool.eq_false_iff]
    constructor
    · intro hne
      have hnot : ¬ (ps ≠ [] ∧ ∀ p ∈ ps, 0 < p ∧ p < (2 : Int) ^ constraint) :=
        fun hcon => hne (htrue.mpr hcon)
      by_cases hnil : ps = []
      · exact Or.inl hnil
      · have hnall : ¬ ∀ p ∈ ps, 0 < p ∧ p < (2 : Int) ^ constraint :=
          fun hall => hnot ⟨hnil, hall⟩
        push_neg at hnall
        obtain ⟨p, hp, hcond⟩ := hnall
        by_cases hp0 : p ≤ 0
        · exact Or.inr (Or.inl ⟨p, hp, hp0⟩)
        · refine Or.inr (Or.inr ⟨p, hp, ?_⟩)
          have := hcond (by omega)
          omega
    · intro h htrue2
      have h2 := htrue.mp htrue2
      rcases h with h | ⟨p, hp, hle⟩ | ⟨p, hp, hge⟩
      · exact h2.1 h
      · have := (h2.2 p hp).1
        omega
      · have := (h2.2 p hp).2
        omega
  · intro _
    refine ⟨outputs_length _, ?_⟩
    intro e he
    obtain ⟨i, _, rfl⟩ := List.mem_map.mp he
    rw [outputsEntry_length]
    simp [numParityBits, mkCodec]

/-- Witness for C9: the empty polynomial list is rejected. -/
theorem claim_C9_witness : constructorAsserts 2 [] = false :=
  (claim_C9 2 []).1.mpr (Or.inl rfl)

/-- C10: encoding a sequence containing a value that is not a logical bit
(2 or more) makes the combined table index reach at least `2^K`, so the
bounds-checked `outputs_.at(...)` access fails and `Encode` produces no
encoded sequence. -/
theorem claim_C10 (c : ViterbiCodec) (bits : List Nat) (hK2 : 2 ≤ c.constraint)
    (hbad : ∃ b ∈ bits, 2 ≤ b) :
    Encode c bits = none
    ∧ ∀ st inp, 2 ≤ inp →
        2 ^ c.constraint ≤ outputIndex c st inp ∧ Output c st inp = none := by
  obtain ⟨K, hK⟩ : ∃ K, c.constraint = K + 2 := ⟨c.constraint - 2, by omega⟩
  refine ⟨encodeFrom_none hK bits 0 (Nat.two_pow_pos _) hbad, ?_⟩
  intro st inp hinp
  exact ⟨outputIndex_ge st hK hinp, outputs_get?_none (outputIndex_ge st hK hinp)⟩

/-- Witness for C10: encoding `[0, 1, 2, 0]` with the `(3, {7, 5})` codec fails. -/
theorem claim_C10_witness :
    (2 ≤ codec75.constraint ∧ ∃ b ∈ ([0, 1, 2, 0] : List Nat), 2 ≤ b)
    ∧ Encode codec75 [0, 1, 2, 0] = none :=
  ⟨⟨by decide, by decide⟩,
    (claim_C10 codec75 [0, 1, 2, 0] (by decide) (by decide)).1⟩

end Viterbi
